import Mathlib

/-!
Verification of the metadata reconciliation and export subsystem of the
rd-methods repository: the `SeqrTags` / `SeqrSubjects` registries
(`lib/seqr/metadata.py`), the writers (`lib/seqr/io.py`) and the
train/holdout group assigner (`scripts/rgp/rgp_group_assigner.py`).

The pandas `DataFrame`s backing the registries are embedded as Lean
lists of row structures, in row order.  A missing (`NaN`) cell of a
string column is embedded as `none`; DataFrame boolean masks such as
`df[df["family"] == fid]` become `List.filter`.  Randomness (the
`sample(frac=1)` shuffle of the group assigner) is embedded as an
explicit permutation parameter.

The file is organised as definitions first (the embedding), then the
theorems settling the specification claims.
-/

namespace RdMethods

/-- Worker for `uniqueFirst`: `seen` is the set of values already
emitted. -/
def uniqueFirstAux (seen : List String) : List String → List String
  | [] => []
  | a :: l =>
    if seen.contains a then uniqueFirstAux seen l
    else a :: uniqueFirstAux (a :: seen) l

/-- First-occurrence deduplication, the semantics of pandas
`Series.unique()`: keep each value at the position where it first
appears.  Used by `SeqrSubjects.get_families` and by the iteration over
`assignments_df.tag.unique()` in the group assigner. -/
def uniqueFirst (l : List String) : List String := uniqueFirstAux [] l

/-- Python `str.split(sep)` for a single-character separator: split at
every occurrence of the separator, keeping empty pieces, with
`"".split(sep) == [""]`.  (Defined on the character list so that it
evaluates by kernel reduction.) -/
def splitChar (c : Char) (s : String) : List String :=
  (s.toList.splitOn c).map (fun cs => String.mk cs)

end RdMethods

namespace RdMethods.Tags

/-- One row of the tag export DataFrame held by `SeqrTags`
(`lib/seqr/metadata.py`).  The columns used by the code are `family`,
`variant` and `tags`; `tags` is `none` when the cell is missing
(`pd.isna`). -/
structure TagRow where
  family : String
  variant : String
  tags : Option String
  deriving DecidableEq, Repr

/-- The ordered precedence list `TAGS_OF_INTEREST` of
`lib/seqr/metadata.py`. -/
def TAGS_OF_INTEREST : List String := [
  "Known gene for phenotype",
  "Tier 1 - Novel gene and phenotype",
  "Tier 1 - Novel gene for known phenotype",
  "Tier 1 - Phenotype expansion",
  "Tier 1 - Novel mode of inheritance",
  "Tier 1 - Known gene, new phenotype",
  "Tier 2 - Novel gene and phenotype",
  "Tier 2 - Novel gene for known phenotype",
  "Tier 2 - Phenotype expansion",
  "Tier 2 - Phenotype not delineated",
  "Tier 2 - Known gene, new phenotype"]

/-- `self.df[self.df["family"] == family_id]`: the rows of the registry
for one family. -/
def rowsForFamily (df : List TagRow) (fid : String) : List TagRow :=
  df.filter (fun r => r.family == fid)

/-- The tags collected by `SeqrTags._get_tags_for_family`: every
non-missing `tags` cell of the family is split on `"|"` and the pieces
are pooled.  The source pools them into a Python `set` and returns
`list(set)`, whose order is unspecified; this embedding keeps the
concatenation order.  The two agree up to membership, and the claim C9
theorem shows the final result depends only on membership. -/
def familyTagList (df : List TagRow) (fid : String) : List String :=
  ((rowsForFamily df fid).filterMap (fun r => r.tags)).flatMap
    (splitChar '|')

/-- The body of `SeqrTags.get_highest_precedence_tag` after the tag pool
for the family has been materialized as the list `tags` (the source
materializes it in an arbitrary set order). -/
def ghptWithTags (df : List TagRow) (fid : String) (tags : List String) :
    Option String :=
  if (rowsForFamily df fid).isEmpty then none
  else if tags.isEmpty then none
  else TAGS_OF_INTEREST.find? (fun t => tags.contains t)

/-- `SeqrTags.get_highest_precedence_tag` (`lib/seqr/metadata.py`):
`None` when the family has no rows, `None` when the pooled tag list is
empty, otherwise the first element of `TAGS_OF_INTEREST` occurring in
the pool. -/
def get_highest_precedence_tag (df : List TagRow) (fid : String) :
    Option String :=
  ghptWithTags df fid (familyTagList df fid)

/-- Modelled from the spec: `SeqrTags.get_families` is declared in the
`IProvideTagInfo` protocol of `lib/seqr/io.py` and exercised by the
tests, but its implementation is absent from `src/lib/seqr/metadata.py`.
Per the spec (§4.2) and the test expectations it returns the distinct
family IDs in first-occurrence order. -/
def get_families (df : List TagRow) : List String :=
  uniqueFirst (df.map (fun r => r.family))

/-- Modelled from the spec: `SeqrTags.get_variants_for_family` is
declared in the `IProvideTagInfo` protocol and exercised by the tests,
but its implementation is absent from `src/lib/seqr/metadata.py`.  Per
the spec it returns the variants of the rows for the family, an empty
sequence when the family is absent. -/
def get_variants_for_family (df : List TagRow) (fid : String) :
    List String :=
  (rowsForFamily df fid).map (fun r => r.variant)

/-- The pooled `"|"`-split tags of the rows for one (family, variant)
pair; rows with a missing `tags` cell contribute nothing. -/
def tagSplitsFor (df : List TagRow) (fid vid : String) : List String :=
  ((df.filter (fun r => r.family == fid && r.variant == vid)).filterMap
    (fun r => r.tags)).flatMap (splitChar '|')

/-- Modelled from the spec: `SeqrTags.get_tags_for_family_and_variant`
is declared in the `IProvideTagInfo` protocol and exercised by the
tests, but its implementation is absent from
`src/lib/seqr/metadata.py`.  Per the spec it fails with a not-found
error when the family has zero rows at all, and otherwise returns the
`"|"`-split tag list for that specific variant row, or an empty list if
the variant has no rows or a blank tags value. -/
def get_tags_for_family_and_variant (df : List TagRow) (fid vid : String) :
    Except String (List String) :=
  if (rowsForFamily df fid).isEmpty then
    Except.error ("Family ID " ++ fid ++ " not found.")
  else
    Except.ok (tagSplitsFor df fid vid)

end RdMethods.Tags

namespace RdMethods.Subjects

/-- One row of the subject export DataFrame held by `SeqrSubjects`
(`lib/seqr/metadata.py`).  The two identifier columns are embedded as
plain strings (the code never treats them as missing); the remaining
columns are `none` when the cell is missing (`NaN`), which
`_get_string_field` maps to the empty string. -/
structure SubjectRow where
  familyId : String
  individualId : String
  paternalId : Option String
  maternalId : Option String
  sex : Option String
  affectedStatus : Option String
  dataLoaded : Option String
  hpoTerms : Option String
  deriving DecidableEq, Repr

/-- A subject row with every non-identifier cell missing; used for
concrete instances in witnesses. -/
def mkRow (fam sid : String) : SubjectRow :=
  ⟨fam, sid, none, none, none, none, none, none⟩

/-- `SeqrSubjects.get_subjects`:
`self.df["Individual ID"].values.tolist()`. -/
def get_subjects (df : List SubjectRow) : List String :=
  df.map (fun r => r.individualId)

/-- `SeqrSubjects.get_families`:
`self.df["Family ID"].unique().tolist()` (first-occurrence order). -/
def get_families (df : List SubjectRow) : List String :=
  uniqueFirst (df.map (fun r => r.familyId))

/-- `SeqrSubjects.get_subjects_for_family`: raises when the family is
absent, otherwise the subject IDs of the family's rows. -/
def get_subjects_for_family (df : List SubjectRow) (fid : String) :
    Except String (List String) :=
  if !(get_families df).contains fid then
    Except.error ("Family ID " ++ fid ++ " not found.")
  else
    Except.ok ((df.filter (fun r => r.familyId == fid)).map
      (fun r => r.individualId))

/-- `SeqrSubjects.remove_subject`: raises when the subject is absent,
otherwise keeps the rows whose `Individual ID` differs
(`self.df = self.df[self.df["Individual ID"] != subject_id]`). -/
def remove_subject (df : List SubjectRow) (sid : String) :
    Except String (List SubjectRow) :=
  if !(get_subjects df).contains sid then
    Except.error ("Subject ID " ++ sid ++ " not found.")
  else
    Except.ok (df.filter (fun r => r.individualId != sid))

/-- `SeqrSubjects.remove_family`: raises when the family is absent,
otherwise keeps the rows whose `Family ID` differs. -/
def remove_family (df : List SubjectRow) (fid : String) :
    Except String (List SubjectRow) :=
  if !(get_families df).contains fid then
    Except.error ("Family ID " ++ fid ++ " not found.")
  else
    Except.ok (df.filter (fun r => r.familyId != fid))

/-- `SeqrSubjects._get_string_field`: raises when the subject is
absent; otherwise the field of the first row with that `Individual ID`
(`values[0]`), with a missing value mapped to the empty string. -/
def get_string_field (df : List SubjectRow) (sid : String)
    (field : SubjectRow → Option String) : Except String String :=
  if !(get_subjects df).contains sid then
    Except.error ("Subject ID " ++ sid ++ " not found.")
  else
    Except.ok
      (((df.filter (fun r => r.individualId == sid)).head?.bind field).getD "")

/-- `SeqrSubjects.is_affected`: the `Affected Status` field literally
equals `"Affected"`. -/
def is_affected (df : List SubjectRow) (sid : String) : Except String Bool :=
  (get_string_field df sid (fun r => r.affectedStatus)).map
    (fun v => v == "Affected")

/-- `SeqrSubjects.get_sex`. -/
def get_sex (df : List SubjectRow) (sid : String) : Except String String :=
  get_string_field df sid (fun r => r.sex)

/-- `SeqrSubjects.get_family_id`. -/
def get_family_id (df : List SubjectRow) (sid : String) :
    Except String String :=
  get_string_field df sid (fun r => some r.familyId)

/-- `SeqrSubjects.get_paternal_id`. -/
def get_paternal_id (df : List SubjectRow) (sid : String) :
    Except String String :=
  get_string_field df sid (fun r => r.paternalId)

/-- `SeqrSubjects.get_maternal_id`. -/
def get_maternal_id (df : List SubjectRow) (sid : String) :
    Except String String :=
  get_string_field df sid (fun r => r.maternalId)

/-- `SeqrSubjects.is_data_loaded`: the `Individual Data Loaded` field
literally equals `"Yes"`. -/
def is_data_loaded (df : List SubjectRow) (sid : String) :
    Except String Bool :=
  (get_string_field df sid (fun r => r.dataLoaded)).map (fun v => v == "Yes")

end RdMethods.Subjects

namespace RdMethods.Parse

/-- The column structure of a raw pandas DataFrame as read by
`pd.read_csv` in `SeqrTags.parse` / `SeqrSubjects.parse`.  The
validation claims depend only on which columns a frame has and whether
it is empty, so row contents are abstracted to their count. -/
structure RawFrame where
  cols : List String
  nrows : Nat
  deriving DecidableEq, Repr

/-- pandas `DataFrame.empty`: true iff either axis has length zero. -/
def RawFrame.isEmpty (f : RawFrame) : Bool :=
  f.nrows == 0 || f.cols.isEmpty

/-- `pd.concat([a, b], ignore_index=True)` at column granularity: the
outer join of the columns (a's columns, then b's new columns); cells of
a column absent from one operand are filled with NaN, so the row count
is the sum. -/
def concatFrames (a b : RawFrame) : RawFrame :=
  ⟨a.cols ++ b.cols.filter (fun c => !a.cols.contains c), a.nrows + b.nrows⟩

/-- The concatenation fold shared by `SeqrTags.parse` and
`SeqrSubjects.parse`:
`full_df = pd.concat([full_df, df], ignore_index=True) if not full_df.empty else df`,
starting from `pd.DataFrame()`. -/
def concatAll (tables : List RawFrame) : RawFrame :=
  tables.foldl
    (fun full df => if full.isEmpty then df else concatFrames full df)
    ⟨[], 0⟩

/-- The required columns of `SeqrTags._validate_input_df`. -/
def TAG_REQUIRED_COLS : List String := ["family", "tags"]

/-- The required columns of `SeqrSubjects._validate_input_df`. -/
def SUBJECT_REQUIRED_COLS : List String := [
  "Family ID", "Individual ID", "Paternal ID", "Maternal ID", "Sex",
  "Affected Status", "Individual Data Loaded", "HPO Terms (present)"]

/-- `_validate_input_df`: raise `ValueError` at the first required
column absent from the frame. -/
def validateCols (required : List String) (f : RawFrame) :
    Except String Unit :=
  match required.find? (fun c => !f.cols.contains c) with
  | some c => Except.error ("Input dataframe must contain column " ++ c ++ ".")
  | none => Except.ok ()

/-- The validation behaviour of `SeqrTags.parse`: all inputs are first
concatenated, and only the concatenated frame is validated (by the
`SeqrTags` constructor). -/
def seqrTagsParseValidation (tables : List RawFrame) : Except String Unit :=
  validateCols TAG_REQUIRED_COLS (concatAll tables)

/-- The validation behaviour of `SeqrSubjects.parse`: all inputs are
concatenated; the duplicate check
`full_df.duplicated(subset=["Individual ID"])` then accesses the
`Individual ID` column (raising a `KeyError` when it is absent), and
only then does the `SeqrSubjects` constructor validate the concatenated
frame. -/
def seqrSubjectsParseValidation (tables : List RawFrame) :
    Except String Unit :=
  let full := concatAll tables
  if !full.cols.contains "Individual ID" then
    Except.error "KeyError: Individual ID"
  else validateCols SUBJECT_REQUIRED_COLS full

end RdMethods.Parse

namespace RdMethods.Writers

open RdMethods.Subjects

/-- The `values[0]` lookup backing every `SeqrSubjects` accessor: the
first row with the given `Individual ID`.  Within the writers the IDs
iterated always come from `get_subjects`, so a row always exists and
the `none` case is unreachable. -/
def lookupRow (df : List SubjectRow) (sid : String) : Option SubjectRow :=
  (df.filter (fun r => r.individualId == sid)).head?

/-- The string value of one field of a subject, as the accessors of
`SeqrSubjects` deliver it to the writers: the field of the first row
with that ID, with missing mapped to the empty string. -/
def fieldOf (df : List SubjectRow) (sid : String)
    (field : SubjectRow → Option String) : String :=
  ((lookupRow df sid).bind field).getD ""

/-- `PedigreeWriter._encode_sex` (`lib/seqr/io.py`). -/
def encode_sex (sex : String) : String :=
  if sex == "Male" then "1" else if sex == "Female" then "2" else "0"

/-- `PedigreeWriter._encode_affected`. -/
def encode_affected (affected : Bool) : String :=
  if affected then "2" else "1"

/-- `PedigreeWriter._encode_parent`: Python string truthiness — an
empty parent ID encodes as `"0"`. -/
def encode_parent (parent : String) : String :=
  if parent == "" then "0" else parent

/-- `PedigreeWriter._get_pedigree_line`: the six tab-separated fields
of one subject, with a trailing newline. -/
def get_pedigree_line (df : List SubjectRow) (subject : String) : String :=
  String.intercalate "\t"
    [fieldOf df subject (fun r => some r.familyId),
     subject,
     encode_parent (fieldOf df subject (fun r => r.paternalId)),
     encode_parent (fieldOf df subject (fun r => r.maternalId)),
     encode_sex (fieldOf df subject (fun r => r.sex)),
     encode_affected
       (fieldOf df subject (fun r => r.affectedStatus) == "Affected")]
  ++ "\n"

/-- The family-restriction test of the writers:
`families_to_write is not None and fam not in families_to_write`
skips the subject. -/
def includedFam (families_to_write : Option (List String))
    (fam : String) : Bool :=
  match families_to_write with
  | none => true
  | some fams => fams.contains fam

/-- `PedigreeWriter.write`: the file contents — one pedigree line per
subject of `get_subjects` (registry iteration order) whose family is
included, concatenated; no header row. -/
def pedigree_write (df : List SubjectRow)
    (families_to_write : Option (List String)) : String :=
  String.join ((get_subjects df).filterMap (fun subject =>
    if includedFam families_to_write
        (fieldOf df subject (fun r => some r.familyId)) then
      some (get_pedigree_line df subject)
    else none))

/-- The pedigree line as the specification describes it, built directly
from a row's fields: family ID, subject ID, paternal ID (or `"0"` if
empty), maternal ID (or `"0"` if empty), sex encoded 1/2/0, affected
encoded 2/1, tab-separated with a trailing newline. -/
def specPedigreeLine (r : SubjectRow) : String :=
  r.familyId ++ "\t" ++ r.individualId ++ "\t" ++
  (if r.paternalId.getD "" = "" then "0" else r.paternalId.getD "") ++
  "\t" ++
  (if r.maternalId.getD "" = "" then "0" else r.maternalId.getD "") ++
  "\t" ++
  (if r.sex.getD "" = "Male" then "1"
   else if r.sex.getD "" = "Female" then "2" else "0") ++ "\t" ++
  (if r.affectedStatus.getD "" = "Affected" then "2" else "1") ++ "\n"

/-- The tag allow-list restriction of `ExternalLabelWriter.write`:
`tags = [tag for tag in tags if tag in self._tags_to_write]` when an
allow-list is given. -/
def restrictTags (tags_to_write : Option (List String))
    (tags : List String) : List String :=
  match tags_to_write with
  | none => tags
  | some allow => tags.filter (fun t => allow.contains t)

/-- The body of the inner loop of `ExternalLabelWriter.write` for one
variant: `tags = get_tags_for_family_and_variant(family, variant)`
(whose payload is `tagSplitsFor`, the call cannot fail because `family`
ranges over `get_families()`), restricted to the allow-list; the dict
entry `tag_dict[family][variant] = tags` exists iff the restricted list
is non-empty. -/
def labelEntryFor (df : List Tags.TagRow)
    (tags_to_write : Option (List String)) (family variant : String) :
    Option (String × List String) :=
  if !(restrictTags tags_to_write (Tags.tagSplitsFor df family variant)).isEmpty
  then some (variant, restrictTags tags_to_write
    (Tags.tagSplitsFor df family variant))
  else none

/-- The variant → tag-list entries for one family in
`ExternalLabelWriter.write`.  Duplicate (family, variant) rows would
overwrite the dict entry with an identical tag list, so iterating the
variants first-occurrence-deduplicated reproduces the dict's insertion
order and final contents. -/
def labelEntriesFor (df : List Tags.TagRow)
    (tags_to_write : Option (List String)) (family : String) :
    List (String × List String) :=
  (uniqueFirst (Tags.get_variants_for_family df family)).filterMap
    (labelEntryFor df tags_to_write family)

/-- The outer loop body of `ExternalLabelWriter.write` for one family:
skipped when not in `families_to_write`; the `defaultdict(dict)`
creates a family key only on the first variant insert, so a family
with no qualifying variant is absent. -/
def outerLabel (df : List Tags.TagRow)
    (families_to_write tags_to_write : Option (List String))
    (family : String) : Option (String × List (String × List String)) :=
  if includedFam families_to_write family then
    (if !(labelEntriesFor df tags_to_write family).isEmpty then
      some (family, labelEntriesFor df tags_to_write family)
    else none)
  else none

/-- `ExternalLabelWriter.write` (`lib/seqr/io.py`): the emitted JSON
object, modeled as the ordered family → (variant → tag list)
association structure. -/
def external_label_write (df : List Tags.TagRow)
    (families_to_write : Option (List String))
    (tags_to_write : Option (List String)) :
    List (String × List (String × List String)) :=
  (Tags.get_families df).filterMap
    (outerLabel df families_to_write tags_to_write)

end RdMethods.Writers

namespace RdMethods.Assigner

open RdMethods.Subjects

/-- The first loop of `filter_indiv`
(`scripts/rgp/rgp_group_assigner.py`): iterate over the snapshot
`indiv.get_subjects()` and remove each subject whose data is not
loaded. -/
def removeUnloadedLoop : List String → List SubjectRow →
    Except String (List SubjectRow)
  | [], df => Except.ok df
  | s :: rest, df => do
    let loaded ← is_data_loaded df s
    if loaded then removeUnloadedLoop rest df
    else do
      let df2 ← remove_subject df s
      removeUnloadedLoop rest df2

/-- The inner loop of the second stage of `filter_indiv`: scan the
family's subjects for an affected one, stopping at the first hit. -/
def anyAffectedLoop : List String → List SubjectRow → Except String Bool
  | [], _ => Except.ok false
  | s :: rest, df => do
    let aff ← is_affected df s
    if aff then Except.ok true else anyAffectedLoop rest df

/-- The second loop of `filter_indiv`: iterate over the snapshot
`indiv.get_families()` and remove each family with no affected
subject. -/
def removeNoAffectedLoop : List String → List SubjectRow →
    Except String (List SubjectRow)
  | [], df => Except.ok df
  | fam :: rest, df => do
    let subs ← get_subjects_for_family df fam
    let found ← anyAffectedLoop subs df
    if found then removeNoAffectedLoop rest df
    else do
      let df2 ← remove_family df fam
      removeNoAffectedLoop rest df2

/-- The third loop of `filter_indiv` (only when a samples list is
supplied): remove each family some member of which is absent from the
samples list.  The source breaks out of the inner loop at the first
absent member and removes the family once; testing all members at once
is equivalent. -/
def removeNotInSamplesLoop (samples : List String) : List String →
    List SubjectRow → Except String (List SubjectRow)
  | [], df => Except.ok df
  | fam :: rest, df => do
    let subs ← get_subjects_for_family df fam
    if subs.all (fun s => samples.contains s) then
      removeNotInSamplesLoop samples rest df
    else do
      let df2 ← remove_family df fam
      removeNotInSamplesLoop samples rest df2

/-- `filter_indiv` (`scripts/rgp/rgp_group_assigner.py`): drop
not-loaded subjects, then families with no affected subject, then —
when a samples list is supplied — families with a member missing from
it.  The samples table is reduced to its `subject_id` column, the only
one the filter consults. -/
def filter_indiv (df : List SubjectRow) (samples : Option (List String)) :
    Except String (List SubjectRow) := do
  let df1 ← removeUnloadedLoop (get_subjects df) df
  let df2 ← removeNoAffectedLoop (get_families df1) df1
  match samples with
  | none => Except.ok df2
  | some samplesList =>
    removeNotInSamplesLoop samplesList (get_families df2) df2

/-- A row survives stage 1 iff its data is loaded
(`is_data_loaded`: the `Individual Data Loaded` cell, read as the empty
string when missing, equals "Yes"). -/
def loadedRow (r : SubjectRow) : Bool := r.dataLoaded.getD "" == "Yes"

/-- A row is affected (`is_affected`: the `Affected Status` cell, read
as the empty string when missing, equals "Affected"). -/
def affectedRow (r : SubjectRow) : Bool :=
  r.affectedStatus.getD "" == "Affected"

/-- Stage 1 of the claimed eligibility filtering: remove every subject
with `is_data_loaded` false. -/
def stage1 (df : List SubjectRow) : List SubjectRow := df.filter loadedRow

/-- Whether a family has at least one affected member in `df`. -/
def keepFam (df : List SubjectRow) (fam : String) : Bool :=
  (df.filter (fun x => x.familyId == fam)).any affectedRow

/-- Stage 2 of the claimed eligibility filtering: remove every family
with zero affected subjects remaining. -/
def stage2 (df : List SubjectRow) : List SubjectRow :=
  df.filter (fun r => keepFam df r.familyId)

/-- Whether all of a family's members in `df` appear in the samples
list. -/
def famInSamples (samples : List String) (df : List SubjectRow)
    (fam : String) : Bool :=
  (df.filter (fun x => x.familyId == fam)).all
    (fun x => samples.contains x.individualId)

/-- Stage 3 of the claimed eligibility filtering: remove, in its
entirety, every family for which some remaining subject is absent from
the samples list. -/
def stage3 (samples : List String) (df : List SubjectRow) :
    List SubjectRow :=
  df.filter (fun r => famInSamples samples df r.familyId)

/-- One row of `assignments_df` in `main`
(`scripts/rgp/rgp_group_assigner.py`), indexed by family: the nullable
`group` column and the stratification `tag`. -/
structure AssignRow where
  family_id : String
  group : Option String
  tag : String
  deriving DecidableEq, Repr

/-- Building `assignments_df`: one row per family of the filtered
registry, `group = None`, and
`tag = tags.get_highest_precedence_tag(family)` with
`fillna("untagged")`. -/
def buildAssignments (families : List String) (tagDf : List Tags.TagRow) :
    List AssignRow :=
  families.map (fun fam =>
    ⟨fam, none, (Tags.get_highest_precedence_tag tagDf fam).getD "untagged"⟩)

/-- One row of the history table (`family_id`, `group`, `tag`); a
missing cell is `none`. -/
structure HistRow where
  family_id : String
  group : Option String
  tag : Option String
  deriving DecidableEq, Repr

/-- `assignments_df.update(history_df, overwrite=True)`: for each
assignment row whose family appears in the history, overwrite the
`group` and `tag` cells with the history's non-missing values
(`update` skips NaN); history rows for families absent from the
assignments are ignored. -/
def applyHistory (rows : List AssignRow) (hist : List HistRow) :
    List AssignRow :=
  rows.map (fun r =>
    match hist.find? (fun h => h.family_id == r.family_id) with
    | none => r
    | some h =>
      ⟨r.family_id,
       (match h.group with | some g => some g | none => r.group),
       h.tag.getD r.tag⟩)

/-- Python slicing `l[:n]` for an `int` n (negative counts from the
end). -/
def pyTake {α : Type} (l : List α) (n : Int) : List α :=
  if 0 ≤ n then l.take n.toNat else l.take (l.length - (-n).toNat)

/-- Python slicing `l[n:]` for an `int` n (negative counts from the
end). -/
def pyDrop {α : Type} (l : List α) (n : Int) : List α :=
  if 0 ≤ n then l.drop n.toNat else l.drop (l.length - (-n).toNat)

/-- `families_to_assign`: the family index of
`assignments_df[assignments_df.group.isna() & (assignments_df.tag == tag)]`
in row order; `sample(frac=1)` permutes this list (the permutation is
the `σ` parameter of `assignLoop`). -/
def unassignedIds (rows : List AssignRow) (tag : String) : List String :=
  (rows.filter (fun r => r.group.isNone && r.tag == tag)).map
    (fun r => r.family_id)

/-- `n_tagged_train = ((assignments_df.group == "train") & (assignments_df.tag == tag)).sum()`. -/
def nTaggedTrain (rows : List AssignRow) (tag : String) : Nat :=
  (rows.filter (fun r => r.group == some "train" && r.tag == tag)).length

/-- `n_train_new = int((assignments_df.tag == tag).sum() * prop_train) - n_tagged_train`
with the fixed `PROP_TRAIN = 0.5`: the float product `count * 0.5` is
exact and `int` truncates toward zero, giving natural floor division by
two; the subtraction is over Python ints and may be negative. -/
def nTrainNew (rows : List AssignRow) (tag : String) : Int :=
  (((rows.filter (fun r => r.tag == tag)).length / 2 : Nat) : Int) -
    (nTaggedTrain rows tag : Int)

/-- `assignments_df.loc[ids, "group"] = g`: set the group of the rows
whose family index is in `ids`. -/
def setGroup (ids : List String) (g : String) (rows : List AssignRow) :
    List AssignRow :=
  rows.map (fun r =>
    if ids.contains r.family_id then ⟨r.family_id, some g, r.tag⟩ else r)

/-- The loop body of `main` for one tag: the first `n_train_new` of the
shuffled unassigned families are set to `train`, then the remainder to
`holdout` (Python slice semantics on an `int` that may be negative or
exceed the list length). -/
def assignTag (rows : List AssignRow) (tag : String)
    (shuffled : List String) : List AssignRow :=
  setGroup (pyDrop shuffled (nTrainNew rows tag)) "holdout"
    (setGroup (pyTake shuffled (nTrainNew rows tag)) "train" rows)

/-- The assignment loop of `main`: iterate the distinct tag values of
`assignments_df.tag.unique()` in first-occurrence order; `σ tag` stands
for `families_to_assign_shuffled`, the shuffle of that tag's unassigned
families. -/
def assignLoop (rows : List AssignRow) (σ : String → List String) :
    List AssignRow :=
  (uniqueFirst (rows.map (fun r => r.tag))).foldl
    (fun cur tag => assignTag cur tag (σ tag)) rows

/-- The group recorded for a family in an assignment table (`none` when
the family is absent or unassigned). -/
def groupOf (rows : List AssignRow) (fam : String) : Option String :=
  match rows.find? (fun r => r.family_id == fam) with
  | some r => r.group
  | none => none

/-- The tag recorded for a family in an assignment table. -/
def tagOf (rows : List AssignRow) (fam : String) : Option String :=
  (rows.find? (fun r => r.family_id == fam)).map (fun r => r.tag)

/-- The number of previously-unassigned families of a tag that the run
newly assigned to `train`. -/
def newlyTrainCount (initial final : List AssignRow) (tag : String) : Nat :=
  ((unassignedIds initial tag).filter
    (fun f => groupOf final f == some "train")).length

end RdMethods.Assigner

/-! ### Theorems -/

namespace RdMethods

theorem contains_eq_mem (l : List String) (a : String) :
    l.contains a = decide (a ∈ l) := by
  simp [List.contains, List.elem_eq_mem]

theorem mem_uniqueFirstAux (l : List String) :
    ∀ (seen : List String) (a : String),
      a ∈ uniqueFirstAux seen l ↔ a ∈ l ∧ a ∉ seen := by
  induction l with
  | nil => intro seen a; simp [uniqueFirstAux]
  | cons b l ih =>
    intro seen a
    by_cases hb : b ∈ seen
    · rw [uniqueFirstAux, if_pos (by simp [contains_eq_mem, hb]), ih]
      constructor
      · rintro ⟨h1, h2⟩
        exact ⟨List.mem_cons_of_mem b h1, h2⟩
      · rintro ⟨h1, h2⟩
        rcases List.mem_cons.mp h1 with rfl | h1
        · exact absurd hb h2
        · exact ⟨h1, h2⟩
    · rw [uniqueFirstAux, if_neg (by simp [contains_eq_mem, hb])]
      simp only [List.mem_cons, ih]
      constructor
      · rintro (rfl | ⟨h1, h2⟩)
        · exact ⟨Or.inl rfl, hb⟩
        · exact ⟨Or.inr h1, fun hc => h2 (Or.inr hc)⟩
      · rintro ⟨rfl | h1, h2⟩
        · exact Or.inl rfl
        · by_cases hab : a = b
          · exact Or.inl hab
          · exact Or.inr ⟨h1, by simp [List.mem_cons, hab, h2]⟩

theorem mem_uniqueFirst (l : List String) (a : String) :
    a ∈ uniqueFirst l ↔ a ∈ l := by
  simpa [uniqueFirst] using mem_uniqueFirstAux l [] a

theorem nodup_uniqueFirstAux (l : List String) :
    ∀ seen : List String, (uniqueFirstAux seen l).Nodup := by
  induction l with
  | nil => intro seen; simp [uniqueFirstAux]
  | cons b l ih =>
    intro seen
    by_cases hb : b ∈ seen
    · rw [uniqueFirstAux, if_pos (by simp [contains_eq_mem, hb])]
      exact ih seen
    · rw [uniqueFirstAux, if_neg (by simp [contains_eq_mem, hb])]
      refine List.nodup_cons.mpr ⟨fun hmem => ?_, ih (b :: seen)⟩
      exact ((mem_uniqueFirstAux l (b :: seen) b).mp hmem).2
        (List.mem_cons_self b seen)

theorem nodup_uniqueFirst (l : List String) : (uniqueFirst l).Nodup :=
  nodup_uniqueFirstAux l []

theorem uniqueFirstAux_congr (l : List String) :
    ∀ seen1 seen2 : List String,
      (∀ x ∈ l, x ∈ seen1 ↔ x ∈ seen2) →
      uniqueFirstAux seen1 l = uniqueFirstAux seen2 l := by
  induction l with
  | nil => intro seen1 seen2 _; rfl
  | cons b l ih =>
    intro seen1 seen2 h
    have hb := h b (List.mem_cons_self b l)
    by_cases hb1 : b ∈ seen1
    · rw [uniqueFirstAux, if_pos (by simp [contains_eq_mem, hb1]),
        uniqueFirstAux, if_pos (by simp [contains_eq_mem, hb.mp hb1])]
      exact ih seen1 seen2 (fun x hx => h x (List.mem_cons_of_mem b hx))
    · have hb2 : b ∉ seen2 := fun h2 => hb1 (hb.mpr h2)
      rw [uniqueFirstAux, if_neg (by simp [contains_eq_mem, hb1]),
        uniqueFirstAux, if_neg (by simp [contains_eq_mem, hb2])]
      refine congrArg (List.cons b) ?_
      refine ih (b :: seen1) (b :: seen2) (fun x hx => ?_)
      simp only [List.mem_cons]
      rw [h x (List.mem_cons_of_mem b hx)]

theorem uniqueFirstAux_filter (p : String → Bool) (l : List String) :
    ∀ seen1 seen2 : List String,
      (∀ x ∈ l, p x → (x ∈ seen1 ↔ x ∈ seen2)) →
      uniqueFirstAux seen1 (l.filter p) = (uniqueFirstAux seen2 l).filter p := by
  induction l with
  | nil => intro seen1 seen2 _; rfl
  | cons b l ih =>
    intro seen1 seen2 h
    have hrest : ∀ x ∈ l, p x → (x ∈ seen1 ↔ x ∈ seen2) :=
      fun x hx => h x (List.mem_cons_of_mem b hx)
    by_cases hp : p b
    · have hbiff := h b (List.mem_cons_self b l) hp
      by_cases hb : b ∈ seen2
      · rw [List.filter_cons_of_pos hp, uniqueFirstAux,
          if_pos (by simp [contains_eq_mem, hbiff.mpr hb]), uniqueFirstAux,
          if_pos (by simp [contains_eq_mem, hb])]
        exact ih seen1 seen2 hrest
      · have hb1 : b ∉ seen1 := fun h1 => hb (hbiff.mp h1)
        rw [List.filter_cons_of_pos hp, uniqueFirstAux,
          if_neg (by simp [contains_eq_mem, hb1]),
          uniqueFirstAux, if_neg (by simp [contains_eq_mem, hb]),
          List.filter_cons_of_pos hp]
        refine congrArg (List.cons b) ?_
        refine ih (b :: seen1) (b :: seen2) (fun x hx hpx => ?_)
        simp only [List.mem_cons]
        rw [hrest x hx hpx]
    · by_cases hb : b ∈ seen2
      · rw [List.filter_cons_of_neg (by simpa using hp), uniqueFirstAux,
          if_pos (by simp [contains_eq_mem, hb])]
        exact ih seen1 seen2 hrest
      · rw [List.filter_cons_of_neg (by simpa using hp), uniqueFirstAux,
          if_neg (by simp [contains_eq_mem, hb]),
          List.filter_cons_of_neg (by simpa using hp)]
        refine ih seen1 (b :: seen2) (fun x hx hpx => ?_)
        have hxb : x ≠ b := fun hxb => hp (hxb ▸ hpx)
        simp only [List.mem_cons, hxb, false_or]
        exact hrest x hx hpx

theorem uniqueFirst_filter (p : String → Bool) (l : List String) :
    uniqueFirst (l.filter p) = (uniqueFirst l).filter p :=
  uniqueFirstAux_filter p l [] [] (by simp)


theorem find?_eq_of_pred_eq {α : Type} (l : List α) (p q : α → Bool)
    (h : ∀ x ∈ l, p x = q x) : l.find? p = l.find? q := by
  induction l with
  | nil => rfl
  | cons a l ih =>
    simp only [List.find?]
    rw [h a (List.mem_cons_self a l)]
    cases q a
    · exact ih fun x hx => h x (List.mem_cons_of_mem a hx)
    · rfl

end RdMethods

namespace RdMethods.Tags

/-- Claim C3: `get_highest_precedence_tag family_id` returns `none` when
the family has no rows in the tag registry; otherwise it returns the
first entry of `TAGS_OF_INTEREST` (in precedence-list order) that is a
member of the union of all `"|"`-split tags across every row for that
family (rows with a missing tags value skipped), or `none` if no
`TAGS_OF_INTEREST` entry is in that union. -/
theorem c3_get_highest_precedence_tag_spec (df : List TagRow)
    (fid : String) :
    get_highest_precedence_tag df fid =
      if rowsForFamily df fid = [] then none
      else TAGS_OF_INTEREST.find?
        (fun t => decide (t ∈ familyTagList df fid)) := by
  unfold get_highest_precedence_tag ghptWithTags
  by_cases h : rowsForFamily df fid = []
  · simp [h]
  · rw [if_neg (by simpa [List.isEmpty_iff] using h), if_neg h]
    by_cases ht : familyTagList df fid = []
    · rw [if_pos (by simpa [List.isEmpty_iff] using ht)]
      rw [eq_comm, List.find?_eq_none]
      intro x _
      simp [ht]
    · rw [if_neg (by simpa [List.isEmpty_iff] using ht)]
      exact find?_eq_of_pred_eq _ _ _ (fun x _ => by
        simp [List.contains, List.elem_eq_mem])

/-- Claim C9 (implicit): `get_highest_precedence_tag` is deterministic —
the intermediate pool of a family's tags is collected in an unordered
Python set, but the result depends only on the membership of that pool,
because it is selected by iterating `TAGS_OF_INTEREST` in its fixed
order.  Formally: evaluating the body on any two materializations of
the pool with the same members gives the same answer. -/
theorem c9_ghpt_deterministic (df : List TagRow) (fid : String)
    (l1 l2 : List String)
    (h1a : ∀ t ∈ l1, t ∈ familyTagList df fid)
    (h1b : ∀ t ∈ familyTagList df fid, t ∈ l1)
    (h2a : ∀ t ∈ l2, t ∈ familyTagList df fid)
    (h2b : ∀ t ∈ familyTagList df fid, t ∈ l2) :
    ghptWithTags df fid l1 = ghptWithTags df fid l2 := by
  have hmem : ∀ t, t ∈ l1 ↔ t ∈ l2 := fun t =>
    ⟨fun h => h2b t (h1a t h), fun h => h1b t (h2a t h)⟩
  unfold ghptWithTags
  by_cases h : (rowsForFamily df fid).isEmpty
  · simp [h]
  · simp only [h, Bool.false_eq_true, if_false]
    have hempty : l1.isEmpty = l2.isEmpty := by
      rcases l1 with _ | ⟨a, l1⟩
      · rcases l2 with _ | ⟨b, l2⟩
        · rfl
        · exact absurd ((hmem b).mpr (List.mem_cons_self b l2)) (by simp)
      · rcases l2 with _ | ⟨b, l2⟩
        · exact absurd ((hmem a).mp (List.mem_cons_self a l1)) (by simp)
        · rfl
    rw [hempty]
    cases hl2 : l2.isEmpty
    · simp only [Bool.false_eq_true, if_false]
      exact find?_eq_of_pred_eq _ _ _ (fun x _ => by
        simp only [List.contains, List.elem_eq_mem]
        exact decide_eq_decide.mpr (hmem x))
    · rfl

/-- Claim C4: the tag registry's variant-level accessors.
`get_variants_for_family` returns an empty sequence when the family is
absent; `get_tags_for_family_and_variant` fails with a not-found error
when the family has zero rows at all, and otherwise returns the
`"|"`-split tag list for that specific variant row — an empty list when
the variant has no rows or only blank tags, and the split of the tags
cell when the variant has exactly one row.  (The accessors are
spec-modelled: their implementation is absent from `src`.) -/
theorem c4_variant_accessors (df : List TagRow) (fid vid : String) :
    ((∀ r ∈ df, r.family ≠ fid) →
        get_variants_for_family df fid = [] ∧
        get_tags_for_family_and_variant df fid vid =
          Except.error ("Family ID " ++ fid ++ " not found."))
    ∧ ((∃ r ∈ df, r.family = fid) →
        (get_tags_for_family_and_variant df fid vid =
            Except.ok (tagSplitsFor df fid vid)) ∧
        ((∀ r ∈ df, r.family = fid → r.variant = vid → r.tags = none) →
          get_tags_for_family_and_variant df fid vid = Except.ok []) ∧
        (∀ s, df.filter (fun r => r.family == fid && r.variant == vid) =
            [⟨fid, vid, some s⟩] →
          get_tags_for_family_and_variant df fid vid =
            Except.ok (splitChar '|' s))) := by
  have hrows : ∀ r ∈ rowsForFamily df fid, r.family = fid := by
    intro r hr
    have := List.of_mem_filter hr
    simpa using this
  constructor
  · intro habsent
    have hnil : rowsForFamily df fid = [] := by
      rw [rowsForFamily, List.filter_eq_nil_iff]
      intro r hr
      simpa using habsent r hr
    constructor
    · simp [get_variants_for_family, hnil]
    · simp [get_tags_for_family_and_variant, hnil]
  · rintro ⟨r, hr, hfam⟩
    have hne : rowsForFamily df fid ≠ [] := by
      intro hnil
      have : r ∈ rowsForFamily df fid := by
        rw [rowsForFamily, List.mem_filter]
        exact ⟨hr, by simp [hfam]⟩
      rw [hnil] at this
      exact absurd this (List.not_mem_nil r)
    have hok : get_tags_for_family_and_variant df fid vid =
        Except.ok (tagSplitsFor df fid vid) := by
      rw [get_tags_for_family_and_variant,
        if_neg (by simpa [List.isEmpty_iff] using hne)]
    refine ⟨hok, fun hblank => ?_, fun s hsingle => ?_⟩
    · rw [hok]
      have : tagSplitsFor df fid vid = [] := by
        rw [tagSplitsFor]
        have hfm : (df.filter
            (fun r => r.family == fid && r.variant == vid)).filterMap
            (fun r => r.tags) = [] := by
          rw [List.filterMap_eq_nil_iff]
          intro x hx
          have hmem := List.of_mem_filter hx
          have hx2 := List.mem_of_mem_filter hx
          simp only [Bool.and_eq_true, beq_iff_eq] at hmem
          rw [hblank x hx2 hmem.1 hmem.2]
        rw [hfm]
        rfl
      rw [this]
    · rw [hok]
      rw [tagSplitsFor, hsingle]
      simp

/-- Witness for claim C9: a concrete registry whose family pool is
`["a", "x"]`, evaluated with the pool materialized in two different
orders. -/
theorem c9_ghpt_deterministic_witness :
    ghptWithTags [⟨"f", "v", some "a|x"⟩] "f" ["x", "a"] =
      ghptWithTags [⟨"f", "v", some "a|x"⟩] "f" ["a", "x"] :=
  c9_ghpt_deterministic [⟨"f", "v", some "a|x"⟩] "f" ["x", "a"]
    ["a", "x"] (by decide) (by decide) (by decide) (by decide)

/-- Witness for claim C4: the accessors evaluated on a concrete
two-row registry — an absent family, a variant with tags, and a variant
whose tags cell is blank. -/
theorem c4_variant_accessors_witness :
    get_variants_for_family
        [⟨"f1", "v1", some "a|b"⟩, ⟨"f1", "v2", none⟩] "nofam" = [] ∧
    get_tags_for_family_and_variant
        [⟨"f1", "v1", some "a|b"⟩, ⟨"f1", "v2", none⟩] "f1" "v1" =
      Except.ok ["a", "b"] ∧
    get_tags_for_family_and_variant
        [⟨"f1", "v1", some "a|b"⟩, ⟨"f1", "v2", none⟩] "f1" "v2" =
      Except.ok [] := by
  refine ⟨?_, ?_, ?_⟩
  · exact ((c4_variant_accessors
      [⟨"f1", "v1", some "a|b"⟩, ⟨"f1", "v2", none⟩] "nofam" "v1").1
      (by decide)).1
  · have h := ((c4_variant_accessors
      [⟨"f1", "v1", some "a|b"⟩, ⟨"f1", "v2", none⟩] "f1" "v1").2
      ⟨⟨"f1", "v1", some "a|b"⟩, by simp, rfl⟩).2.2 "a|b" (by decide)
    rw [h]
    exact congrArg Except.ok (by decide)
  · exact ((c4_variant_accessors
      [⟨"f1", "v1", some "a|b"⟩, ⟨"f1", "v2", none⟩] "f1" "v2").2
      ⟨⟨"f1", "v1", some "a|b"⟩, by simp, rfl⟩).2.1 (by decide)

end RdMethods.Tags

namespace RdMethods.Subjects

theorem find?_subjectrow_self (df : List SubjectRow)
    (hids : (get_subjects df).Nodup) (r : SubjectRow)
    (hr : r ∈ df) :
    df.find? (fun x => x.individualId == r.individualId) = some r := by
  induction df with
  | nil => cases hr
  | cons a df ih =>
    rw [get_subjects, List.map_cons, List.nodup_cons] at hids
    rcases List.mem_cons.mp hr with rfl | hr2
    · exact List.find?_cons_of_pos _ (by simp)
    · have hne : ¬(a.individualId == r.individualId) = true := by
        simp only [beq_iff_eq]
        intro he
        exact hids.1
          (he ▸ List.mem_map_of_mem (fun x => x.individualId) hr2)
      have hs : List.find? (fun x => x.individualId == r.individualId)
          (a :: df) =
          List.find? (fun x => x.individualId == r.individualId) df :=
        List.find?_cons_of_neg _ hne
      rw [hs]
      exact ih hids.2 hr2

/-- Claim C10 (amended): `remove_subject` leaves `get_subjects()` as the
prior sequence with exactly the removed subject's rows deleted and all
other subjects in their original relative order; `remove_family` leaves
`get_families()` as the prior sequence with exactly the removed family
deleted, and `get_subjects()` as the prior sequence with exactly the
removed family's rows deleted and all other subjects in their original
relative order — stated exactly over the rows, as a subsequence, and
(under the unique-ID parse invariant) as a filter of the prior subject
sequence by each subject's family.  (After `remove_subject`,
`get_families()` may reorder — see the counterexample.) -/
theorem c10_remove_preserves_order (df : List SubjectRow)
    (sid fid : String) :
    (∀ df2, remove_subject df sid = Except.ok df2 →
        get_subjects df2 = (get_subjects df).filter (fun s => s != sid))
    ∧ (∀ df2, remove_family df fid = Except.ok df2 →
        get_families df2 = (get_families df).filter (fun f => f != fid)
        ∧ get_subjects df2 =
            (df.filter (fun r => r.familyId != fid)).map
              (fun r => r.individualId)
        ∧ (get_subjects df2).Sublist (get_subjects df)
        ∧ ((get_subjects df).Nodup →
            get_subjects df2 = (get_subjects df).filter
              (fun s =>
                (df.find? (fun r => r.individualId == s)).all
                  (fun r => r.familyId != fid)))) := by
  constructor
  · intro df2 h
    rw [remove_subject] at h
    by_cases hc : (get_subjects df).contains sid
    · rw [hc] at h
      simp only [Bool.not_true, Bool.false_eq_true, if_false,
        Except.ok.injEq] at h
      subst h
      rw [get_subjects, get_subjects, List.filter_map]
      rfl
    · rw [Bool.not_eq_true] at hc
      rw [hc] at h
      simp at h
  · intro df2 h
    rw [remove_family] at h
    by_cases hc : (get_families df).contains fid
    · rw [hc] at h
      simp only [Bool.not_true, Bool.false_eq_true, if_false,
        Except.ok.injEq] at h
      subst h
      refine ⟨?_, rfl, ?_, ?_⟩
      · rw [get_families, get_families, ← uniqueFirst_filter,
          List.filter_map]
        rfl
      · exact (List.filter_sublist df).map (fun r => r.individualId)
      · intro hnodup
        simp only [get_subjects]
        rw [List.filter_map]
        refine congrArg (List.map (fun r : SubjectRow => r.individualId)) ?_
        refine List.filter_congr ?_
        intro r hr
        have hfind := find?_subjectrow_self df hnodup r hr
        show (r.familyId != fid) =
          (df.find? (fun x => x.individualId == r.individualId)).all
            (fun x => x.familyId != fid)
        rw [hfind]
        rfl
    · rw [Bool.not_eq_true] at hc
      rw [hc] at h
      simp at h

end RdMethods.Subjects

namespace RdMethods.Subjects

/-- Counterexample for claim C10 as stated: removing subject `s1` (the
first-listed row of family `A`, which keeps its row `s3`) deletes no
family, yet `get_families()` afterwards is `["B", "A"]` while the prior
sequence restricted to the surviving families is `["A", "B"]` — the
relative order of the remaining families is not preserved. -/
theorem c10_counterexample :
    remove_subject [mkRow "A" "s1", mkRow "B" "s2", mkRow "A" "s3"] "s1" =
      Except.ok [mkRow "B" "s2", mkRow "A" "s3"] ∧
    get_families [mkRow "A" "s1", mkRow "B" "s2", mkRow "A" "s3"] =
      ["A", "B"] ∧
    get_families [mkRow "B" "s2", mkRow "A" "s3"] = ["B", "A"] ∧
    (get_families [mkRow "A" "s1", mkRow "B" "s2", mkRow "A" "s3"]).filter
        (fun f =>
          (get_families [mkRow "B" "s2", mkRow "A" "s3"]).contains f) ≠
      get_families [mkRow "B" "s2", mkRow "A" "s3"] :=
  ⟨rfl, by decide, by decide, by decide⟩

/-- Witness for claim C10: the amended order-preservation facts
evaluated at concrete registries. -/
theorem c10_remove_preserves_order_witness :
    get_subjects [mkRow "A" "s2"] =
      (get_subjects [mkRow "A" "s1", mkRow "A" "s2"]).filter
        (fun s => s != "s1") ∧
    get_families [mkRow "B" "s2"] =
      (get_families [mkRow "A" "s1", mkRow "B" "s2"]).filter
        (fun f => f != "A") ∧
    get_subjects [mkRow "B" "s2"] =
      ([mkRow "A" "s1", mkRow "B" "s2"].filter
        (fun r => r.familyId != "A")).map (fun r => r.individualId) ∧
    get_subjects [mkRow "B" "s2"] =
      (get_subjects [mkRow "A" "s1", mkRow "B" "s2"]).filter
        (fun s =>
          ([mkRow "A" "s1", mkRow "B" "s2"].find?
            (fun r => r.individualId == s)).all
              (fun r => r.familyId != "A")) :=
  ⟨(c10_remove_preserves_order [mkRow "A" "s1", mkRow "A" "s2"] "s1"
      "A").1 [mkRow "A" "s2"] rfl,
   ((c10_remove_preserves_order [mkRow "A" "s1", mkRow "B" "s2"] "s1"
      "A").2 [mkRow "B" "s2"] rfl).1,
   ((c10_remove_preserves_order [mkRow "A" "s1", mkRow "B" "s2"] "s1"
      "A").2 [mkRow "B" "s2"] rfl).2.1,
   ((c10_remove_preserves_order [mkRow "A" "s1", mkRow "B" "s2"] "s1"
      "A").2 [mkRow "B" "s2"] rfl).2.2.2 (by decide)⟩

end RdMethods.Subjects

namespace RdMethods.Parse

theorem validateCols_ok_iff (required : List String) (f : RawFrame) :
    validateCols required f = Except.ok () ↔
      ∀ c ∈ required, c ∈ f.cols := by
  rw [validateCols]
  cases hfind : required.find? (fun c => !f.cols.contains c) with
  | some c =>
    simp only [Except.error.injEq]
    constructor
    · intro h; exact absurd h (by simp)
    · intro h
      have hc := List.find?_some hfind
      have hmem := List.mem_of_find?_eq_some hfind
      rw [Bool.not_eq_true', contains_eq_mem, decide_eq_false_iff_not] at hc
      exact absurd (h c hmem) hc
  | none =>
    simp only [true_iff]
    intro c hc
    have := List.find?_eq_none.mp hfind c hc
    rw [Bool.not_eq_true', contains_eq_mem] at this
    simpa using this

theorem mem_foldl_concat_cols (ts : List RawFrame) :
    ∀ a : RawFrame, a.isEmpty = false → (∀ t ∈ ts, t.isEmpty = false) →
      ∀ c, c ∈ (ts.foldl
          (fun full df => if full.isEmpty then df else concatFrames full df)
          a).cols ↔ c ∈ a.cols ∨ ∃ t ∈ ts, c ∈ t.cols := by
  induction ts with
  | nil => intro a _ _ c; simp
  | cons b ts ih =>
    intro a ha hall c
    have hb : b.isEmpty = false := hall b (List.mem_cons_self b ts)
    have ha' : a.nrows ≠ 0 ∧ a.cols ≠ [] := by
      rw [RawFrame.isEmpty] at ha
      simpa only [Bool.or_eq_false_iff, beq_eq_false_iff_ne, ne_eq,
        List.isEmpty_eq_false] using ha
    have hne : (concatFrames a b).isEmpty = false := by
      rw [RawFrame.isEmpty, concatFrames]
      simp only [Bool.or_eq_false_iff, beq_eq_false_iff_ne, ne_eq,
        List.isEmpty_eq_false]
      constructor
      · show a.nrows + b.nrows ≠ 0
        intro hcontra
        exact ha'.1 (by omega)
      · show a.cols ++ b.cols.filter (fun c => !a.cols.contains c) ≠ []
        intro hcontra
        exact ha'.2 (List.append_eq_nil.mp hcontra).1
    rw [List.foldl_cons, if_neg (by rw [ha]; simp),
      ih (concatFrames a b) hne
        (fun t ht => hall t (List.mem_cons_of_mem b ht)) c]
    have hcols : c ∈ (concatFrames a b).cols ↔ c ∈ a.cols ∨ c ∈ b.cols := by
      rw [concatFrames]
      simp only [List.mem_append, List.mem_filter, Bool.not_eq_true',
        contains_eq_mem, decide_eq_false_iff_not]
      constructor
      · rintro (h | ⟨h, _⟩)
        · exact Or.inl h
        · exact Or.inr h
      · rintro (h | h)
        · exact Or.inl h
        · by_cases hac : c ∈ a.cols
          · exact Or.inl hac
          · exact Or.inr ⟨h, hac⟩
    rw [hcols]
    constructor
    · rintro ((h | h) | ⟨t, ht, hc⟩)
      · exact Or.inl h
      · exact Or.inr ⟨b, List.mem_cons_self b ts, h⟩
      · exact Or.inr ⟨t, List.mem_cons_of_mem b ht, hc⟩
    · rintro (h | ⟨t, ht, hc⟩)
      · exact Or.inl (Or.inl h)
      · rcases List.mem_cons.mp ht with rfl | ht
        · exact Or.inl (Or.inr hc)
        · exact Or.inr ⟨t, ht, hc⟩

/-- Claim C5 (amended): `SeqrTags.parse` and `SeqrSubjects.parse`
validate only the concatenated frame, whose columns are (for inputs
that each have at least one row and one column) the union of the input
tables' columns: the parse succeeds iff every required column is
present in some input table.  A required column absent from one
individual input table but present in another does not fail — its
values are filled in as missing. -/
theorem c5_parse_validation (tables : List RawFrame)
    (hne : ∀ t ∈ tables, t.isEmpty = false) :
    (seqrTagsParseValidation tables = Except.ok () ↔
      ∀ c ∈ TAG_REQUIRED_COLS, c ∈ (concatAll tables).cols)
    ∧ (seqrSubjectsParseValidation tables = Except.ok () ↔
      ∀ c ∈ SUBJECT_REQUIRED_COLS, c ∈ (concatAll tables).cols)
    ∧ (∀ c, c ∈ (concatAll tables).cols ↔ ∃ t ∈ tables, c ∈ t.cols) := by
  refine ⟨validateCols_ok_iff _ _, ?_, ?_⟩
  · rw [seqrSubjectsParseValidation]
    by_cases hid : (concatAll tables).cols.contains "Individual ID"
    · rw [if_neg (by rw [hid]; simp)]
      exact validateCols_ok_iff _ _
    · rw [Bool.not_eq_true] at hid
      rw [hid]
      simp only [Bool.not_false, if_true]
      constructor
      · intro h; exact absurd h (by simp)
      · intro h
        rw [contains_eq_mem, decide_eq_false_iff_not] at hid
        exact absurd (h "Individual ID" (by rw [SUBJECT_REQUIRED_COLS]; simp))
          hid
  · intro c
    rcases tables with _ | ⟨t, ts⟩
    · simp [concatAll]
    · have hstart : (RawFrame.mk [] 0).isEmpty = true := rfl
      rw [concatAll, List.foldl_cons, if_pos hstart]
      rw [mem_foldl_concat_cols ts t (hne t (List.mem_cons_self t ts))
        (fun u hu => hne u (List.mem_cons_of_mem t hu)) c]
      constructor
      · rintro (h | ⟨u, hu, hc⟩)
        · exact ⟨t, List.mem_cons_self t ts, h⟩
        · exact ⟨u, List.mem_cons_of_mem t hu, hc⟩
      · rintro ⟨u, hu, hc⟩
        rcases List.mem_cons.mp hu with rfl | hu
        · exact Or.inl hc
        · exact Or.inr ⟨u, hu, hc⟩

/-- Counterexample for claim C5 as stated: two tag tables, the second
missing the required `tags` column; the parse nevertheless succeeds,
because `pd.concat` unions the columns and only the concatenated frame
is validated. -/
theorem c5_counterexample :
    seqrTagsParseValidation [⟨["family", "tags"], 1⟩, ⟨["family"], 1⟩] =
      Except.ok () ∧
    "tags" ∈ TAG_REQUIRED_COLS ∧
    "tags" ∉ (RawFrame.mk ["family"] 1).cols :=
  ⟨rfl, by decide, by decide⟩

/-- Witness for claim C5: the amended validation equivalence evaluated
on the concrete two-table input of the counterexample. -/
theorem c5_parse_validation_witness :
    (seqrTagsParseValidation [⟨["family", "tags"], 1⟩, ⟨["family"], 1⟩] =
        Except.ok () ↔
      ∀ c ∈ TAG_REQUIRED_COLS,
        c ∈ (concatAll [⟨["family", "tags"], 1⟩, ⟨["family"], 1⟩]).cols) :=
  (c5_parse_validation [⟨["family", "tags"], 1⟩, ⟨["family"], 1⟩]
    (by decide)).1

end RdMethods.Parse

namespace RdMethods.Writers

open RdMethods.Subjects

theorem intercalate_six (a b c d e f : String) :
    String.intercalate "\t" [a, b, c, d, e, f] =
      a ++ "\t" ++ b ++ "\t" ++ c ++ "\t" ++ d ++ "\t" ++ e ++ "\t" ++ f := by
  simp [String.intercalate, String.intercalate.go, String.append_assoc]

theorem filter_map_eq_filterMap {α β : Type} (p : α → Bool) (g : α → β)
    (l : List α) :
    (l.filter p).map g =
      l.filterMap (fun a => if p a then some (g a) else none) := by
  induction l with
  | nil => rfl
  | cons a l ih =>
    by_cases hp : p a <;> simp [hp, ih]

theorem lookupRow_self (df : List SubjectRow)
    (hnodup : (get_subjects df).Nodup) (r : SubjectRow) (hr : r ∈ df) :
    lookupRow df r.individualId = some r := by
  induction df with
  | nil => cases hr
  | cons a df ih =>
    rw [get_subjects, List.map_cons, List.nodup_cons] at hnodup
    rcases List.mem_cons.mp hr with rfl | hr2
    · rw [lookupRow, List.filter_cons_of_pos (by simp)]
      rfl
    · have hne : ¬(a.individualId == r.individualId) = true := by
        simp only [beq_iff_eq]
        intro he
        exact hnodup.1 (he ▸ List.mem_map_of_mem (fun x => x.individualId) hr2)
      have hstep : List.filter (fun x => x.individualId == r.individualId)
          (a :: df) =
          List.filter (fun x => x.individualId == r.individualId) df :=
        List.filter_cons_of_neg hne
      rw [lookupRow, hstep]
      exact ih hnodup.2 hr2

theorem fieldOf_self (df : List SubjectRow) (r : SubjectRow)
    (hlook : lookupRow df r.individualId = some r)
    (field : SubjectRow → Option String) :
    fieldOf df r.individualId field = (field r).getD "" := by
  rw [fieldOf, hlook]
  rfl

theorem get_pedigree_line_eq (df : List SubjectRow) (r : SubjectRow)
    (hlook : lookupRow df r.individualId = some r) :
    get_pedigree_line df r.individualId = specPedigreeLine r := by
  rw [get_pedigree_line, specPedigreeLine]
  simp only [fieldOf_self df r hlook]
  rw [intercalate_six]
  simp only [Option.getD_some, encode_parent, encode_sex, encode_affected,
    beq_iff_eq]

/-- Claim C7: the `PedigreeWriter` output is, for every subject in
registry iteration order whose family is included, exactly one
tab-separated line — family ID, subject ID, paternal ID (or `"0"` if
empty), maternal ID (or `"0"` if empty), sex encoded 1 for `"Male"`,
2 for `"Female"`, 0 otherwise, affected encoded 2 if affected else 1 —
each line ending in a newline, with no header row. -/
theorem c7_pedigree_writer (df : List SubjectRow)
    (fams : Option (List String)) (hnodup : (get_subjects df).Nodup) :
    pedigree_write df fams =
      String.join
        ((df.filter (fun r => includedFam fams r.familyId)).map
          specPedigreeLine) := by
  rw [pedigree_write, get_subjects, List.filterMap_map,
    filter_map_eq_filterMap]
  refine congrArg String.join (List.filterMap_congr (fun r hr => ?_))
  have hlook := lookupRow_self df hnodup r hr
  show (if includedFam fams (fieldOf df r.individualId
      (fun x => some x.familyId)) then
    some (get_pedigree_line df r.individualId) else none) = _
  rw [fieldOf_self df r hlook, get_pedigree_line_eq df r hlook]
  rfl

/-- Witness for claim C7: the writer evaluated on a one-subject
registry with every optional cell missing. -/
theorem c7_pedigree_writer_witness :
    pedigree_write [mkRow "A" "s1"] none = "A\ts1\t0\t0\t0\t1\n" :=
  (c7_pedigree_writer [mkRow "A" "s1"] none (by decide)).trans (by rfl)

end RdMethods.Writers

namespace RdMethods.Writers

theorem find?_filterMap_key {β : Type} (l : List String)
    (f : String → Option (String × β))
    (hkey : ∀ x e, f x = some e → e.1 = x) (hnd : l.Nodup) (fam : String) :
    (l.filterMap f).find? (fun e => e.1 == fam) =
      if fam ∈ l then f fam else none := by
  induction l with
  | nil => simp
  | cons a l ih =>
    rw [List.nodup_cons] at hnd
    rw [List.filterMap_cons]
    cases hfa : f a with
    | none =>
      rw [ih hnd.2]
      by_cases hfam : fam = a
      · subst hfam
        simp [hnd.1, hfa]
      · simp [List.mem_cons, hfam]
    | some e =>
      have he := hkey a e hfa
      by_cases hfam : fam = a
      · subst hfam
        rw [List.find?_cons_of_pos _ (by simp [he]),
          if_pos (List.mem_cons_self fam l), hfa]
      · rw [List.find?_cons_of_neg _
          (by simp only [he, beq_iff_eq]; exact fun h => hfam h.symm),
          ih hnd.2]
        simp [List.mem_cons, hfam]

theorem mem_tags_get_families (df : List Tags.TagRow) (fam : String) :
    fam ∈ Tags.get_families df ↔ ∃ r ∈ df, r.family = fam := by
  rw [Tags.get_families, mem_uniqueFirst, List.mem_map]

theorem rowsForFamily_eq_nil_of_absent (df : List Tags.TagRow)
    (fam : String) (habs : fam ∉ Tags.get_families df) :
    Tags.rowsForFamily df fam = [] := by
  rw [Tags.rowsForFamily, List.filter_eq_nil_iff]
  intro r hr
  simp only [beq_iff_eq]
  intro hcontra
  exact habs ((mem_tags_get_families df fam).mpr ⟨r, hr, hcontra⟩)

theorem not_isEmpty_iff {α : Type} (l : List α) :
    ((!l.isEmpty) = true) ↔ l ≠ [] := by
  cases l <;> simp

theorem labelEntriesFor_eq_nil_iff (df : List Tags.TagRow)
    (allow : Option (List String)) (fam : String) :
    labelEntriesFor df allow fam = [] ↔
      ∀ v ∈ Tags.get_variants_for_family df fam,
        restrictTags allow (Tags.tagSplitsFor df fam v) = [] := by
  rw [labelEntriesFor, List.filterMap_eq_nil_iff]
  constructor
  · intro h v hv
    have h1 := h v ((mem_uniqueFirst _ _).mpr hv)
    rw [labelEntryFor] at h1
    by_contra hne
    rw [if_pos ((not_isEmpty_iff _).mpr hne)] at h1
    exact absurd h1 (by simp)
  · intro h v hv
    rw [labelEntryFor,
      if_neg (by simp [h v ((mem_uniqueFirst _ _).mp hv)])]

theorem labelEntryFor_key (df : List Tags.TagRow)
    (allow : Option (List String)) (fam : String) :
    ∀ x en, labelEntryFor df allow fam x = some en → en.1 = x := by
  intro x en h
  rw [labelEntryFor] at h
  split_ifs at h with h1
  injection h with h
  rw [← h]

theorem outerLabel_key (df : List Tags.TagRow)
    (fams allow : Option (List String)) :
    ∀ x e, outerLabel df fams allow x = some e → e.1 = x := by
  intro x e h
  rw [outerLabel] at h
  split_ifs at h with h1 h2
  injection h with h
  rw [← h]

/-- Claim C8: in the `ExternalLabelWriter` output, a family key is
absent exactly when none of its variants retains at least one tag after
restriction to the tag allow-list; a variant whose tag list becomes
empty after allow-list filtering is omitted from the family's entry,
but the family is still present if another of its variants retains a
tag. -/
theorem c8_external_label_writer (df : List Tags.TagRow)
    (fams allow : Option (List String)) (fam : String)
    (hincl : includedFam fams fam = true) :
    (((external_label_write df fams allow).find?
        (fun e => e.1 == fam)).isSome ↔
      ∃ v ∈ Tags.get_variants_for_family df fam,
        restrictTags allow (Tags.tagSplitsFor df fam v) ≠ [])
    ∧ (∀ e, (external_label_write df fams allow).find?
          (fun e2 => e2.1 == fam) = some e →
        ∀ v, ((e.2.find? (fun en => en.1 == v)).isSome ↔
          (v ∈ Tags.get_variants_for_family df fam ∧
            restrictTags allow (Tags.tagSplitsFor df fam v) ≠ []))) := by
  have hfind : (external_label_write df fams allow).find?
      (fun e => e.1 == fam) =
      if fam ∈ Tags.get_families df then outerLabel df fams allow fam
      else none := by
    rw [external_label_write]
    exact find?_filterMap_key (Tags.get_families df) _
      (outerLabel_key df fams allow) (nodup_uniqueFirst _) fam
  by_cases hmem : fam ∈ Tags.get_families df
  · rw [hfind, if_pos hmem, outerLabel, if_pos hincl]
    by_cases hent : labelEntriesFor df allow fam = []
    · rw [if_neg (by simp [hent])]
      constructor
      · simp only [Option.isSome_none, Bool.false_eq_true, false_iff,
          not_exists]
        rintro v ⟨hv, hne⟩
        exact hne ((labelEntriesFor_eq_nil_iff df allow fam).mp hent v hv)
      · intro e he
        exact absurd he (by simp)
    · rw [if_pos ((not_isEmpty_iff _).mpr hent)]
      constructor
      · simp only [Option.isSome_some, true_iff]
        by_contra hno
        push_neg at hno
        exact hent ((labelEntriesFor_eq_nil_iff df allow fam).mpr hno)
      · intro e he v
        injection he with he
        subst he
        show ((labelEntriesFor df allow fam).find?
          (fun en => en.1 == v)).isSome = true ↔ _
        rw [labelEntriesFor, find?_filterMap_key _ _
          (labelEntryFor_key df allow fam) (nodup_uniqueFirst _) v]
        by_cases hv : v ∈ uniqueFirst (Tags.get_variants_for_family df fam)
        · rw [if_pos hv, labelEntryFor]
          by_cases hres : restrictTags allow (Tags.tagSplitsFor df fam v) = []
          · rw [if_neg (by simp [hres])]
            simp only [Option.isSome_none, Bool.false_eq_true, false_iff,
              not_and]
            exact fun _ hne => hne hres
          · rw [if_pos ((not_isEmpty_iff _).mpr hres)]
            simp only [Option.isSome_some, true_iff]
            exact ⟨(mem_uniqueFirst _ v).mp hv, hres⟩
        · rw [if_neg hv]
          simp only [Option.isSome_none, Bool.false_eq_true, false_iff,
            not_and]
          intro hmemv
          exact absurd ((mem_uniqueFirst _ v).mpr hmemv) hv
  · rw [hfind, if_neg hmem]
    have hnil : Tags.get_variants_for_family df fam = [] := by
      rw [Tags.get_variants_for_family,
        rowsForFamily_eq_nil_of_absent df fam hmem]
      rfl
    constructor
    · simp [hnil]
    · intro e he
      exact absurd he (by simp)

/-- Witness for claim C8: a registry where family `f1` has variant `v1`
whose only tag is filtered away by the allow-list and variant `v2`
which retains a tag; the family key is present. -/
theorem c8_external_label_writer_witness :
    (((external_label_write
        [⟨"f1", "v1", some "tagA"⟩, ⟨"f1", "v2", some "tagB"⟩] none
        (some ["tagB"])).find? (fun e => e.1 == "f1")).isSome ↔
      ∃ v ∈ Tags.get_variants_for_family
          [⟨"f1", "v1", some "tagA"⟩, ⟨"f1", "v2", some "tagB"⟩] "f1",
        restrictTags (some ["tagB"])
          (Tags.tagSplitsFor
            [⟨"f1", "v1", some "tagA"⟩, ⟨"f1", "v2", some "tagB"⟩]
            "f1" v) ≠ []) :=
  (c8_external_label_writer
    [⟨"f1", "v1", some "tagA"⟩, ⟨"f1", "v2", some "tagB"⟩] none
    (some ["tagB"]) "f1" rfl).1

end RdMethods.Writers

namespace RdMethods.Assigner

open RdMethods.Subjects

theorem except_bind_ok {α β : Type} (a : α) (f : α → Except String β) :
    (Except.ok a >>= f) = f a := rfl

theorem mem_get_families (df : List SubjectRow) (fam : String) :
    fam ∈ get_families df ↔ ∃ r ∈ df, r.familyId = fam := by
  rw [get_families, mem_uniqueFirst, List.mem_map]

theorem get_string_field_row (df : List SubjectRow)
    (hnodup : (get_subjects df).Nodup) (r : SubjectRow) (hr : r ∈ df)
    (field : SubjectRow → Option String) :
    get_string_field df r.individualId field =
      Except.ok ((field r).getD "") := by
  rw [get_string_field]
  have hc : (get_subjects df).contains r.individualId = true := by
    rw [contains_eq_mem, decide_eq_true_eq]
    exact List.mem_map_of_mem _ hr
  rw [hc]
  simp only [Bool.not_true, Bool.false_eq_true, if_false]
  have hl : (df.filter
      (fun x => x.individualId == r.individualId)).head? = some r :=
    Writers.lookupRow_self df hnodup r hr
  rw [hl]
  rfl

theorem is_data_loaded_row (df : List SubjectRow)
    (hnodup : (get_subjects df).Nodup) (r : SubjectRow) (hr : r ∈ df) :
    is_data_loaded df r.individualId = Except.ok (loadedRow r) := by
  rw [is_data_loaded, get_string_field_row df hnodup r hr]
  rfl

theorem is_affected_row (df : List SubjectRow)
    (hnodup : (get_subjects df).Nodup) (r : SubjectRow) (hr : r ∈ df) :
    is_affected df r.individualId = Except.ok (affectedRow r) := by
  rw [is_affected, get_string_field_row df hnodup r hr]
  rfl

theorem removeUnloadedLoop_spec (suffix : List SubjectRow) :
    ∀ kept : List SubjectRow,
      (get_subjects (kept ++ suffix)).Nodup →
      (∀ r ∈ kept, loadedRow r = true) →
      removeUnloadedLoop (get_subjects suffix) (kept ++ suffix) =
        Except.ok (kept ++ suffix.filter loadedRow) := by
  induction suffix with
  | nil =>
    intro kept _ _
    rw [get_subjects, List.map_nil, removeUnloadedLoop]
    simp
  | cons r suffix ih =>
    intro kept hnodup hkept
    have hsnap : get_subjects (r :: suffix) =
        r.individualId :: get_subjects suffix := rfl
    rw [hsnap, removeUnloadedLoop]
    have hrmem : r ∈ kept ++ r :: suffix := by simp
    rw [is_data_loaded_row _ hnodup r hrmem, except_bind_ok]
    have hids : ∀ x ∈ kept ++ suffix,
        x.individualId ≠ r.individualId := by
      rw [get_subjects, List.map_append, List.map_cons,
        List.nodup_append] at hnodup
      intro x hx he
      rcases List.mem_append.mp hx with hx | hx
      · exact hnodup.2.2 (List.mem_map_of_mem _ hx)
          (he ▸ List.mem_cons_self _ _)
      · exact (List.nodup_cons.mp hnodup.2.1).1
          (he ▸ List.mem_map_of_mem _ hx)
    cases hload : loadedRow r with
    | true =>
      simp only [if_true]
      have hassoc : kept ++ r :: suffix = (kept ++ [r]) ++ suffix := by
        simp
      rw [hassoc]
      rw [ih (kept ++ [r]) (by rw [← hassoc]; exact hnodup)
        (by intro x hx
            rcases List.mem_append.mp hx with hx | hx
            · exact hkept x hx
            · rw [List.mem_singleton.mp hx]; exact hload)]
      rw [List.filter_cons_of_pos hload]
      simp
    | false =>
      simp only [Bool.false_eq_true, if_false]
      have hrs : remove_subject (kept ++ r :: suffix) r.individualId =
          Except.ok (kept ++ suffix) := by
        rw [remove_subject]
        have hc : (get_subjects (kept ++ r :: suffix)).contains
            r.individualId = true := by
          rw [contains_eq_mem, decide_eq_true_eq]
          exact List.mem_map_of_mem _ hrmem
        rw [hc]
        simp only [Bool.not_true, Bool.false_eq_true, if_false]
        refine congrArg Except.ok ?_
        rw [List.filter_append]
        have hk : kept.filter
            (fun x => x.individualId != r.individualId) = kept :=
          List.filter_eq_self.mpr (fun x hx => by
            simpa using hids x (List.mem_append_left _ hx))
        have hs : (r :: suffix).filter
            (fun x => x.individualId != r.individualId) = suffix := by
          rw [List.filter_cons_of_neg (by simp)]
          exact List.filter_eq_self.mpr (fun x hx => by
            simpa using hids x (List.mem_append_right _ hx))
        rw [hk, hs]
      rw [hrs, except_bind_ok]
      have hsub : (kept ++ suffix).Sublist (kept ++ r :: suffix) :=
        List.Sublist.append_left (List.sublist_cons_self r suffix) kept
      have hnodup2 : (get_subjects (kept ++ suffix)).Nodup := by
        rw [get_subjects]
        refine List.Nodup.sublist
          (hsub.map (fun x => x.individualId)) ?_
        rw [get_subjects] at hnodup
        exact hnodup
      rw [ih kept hnodup2 hkept]
      rw [List.filter_cons_of_neg (by simp [hload])]

end RdMethods.Assigner

namespace RdMethods.Assigner

open RdMethods.Subjects

theorem all_map_general {α β : Type} (f : α → β) (p : β → Bool)
    (l : List α) : (l.map f).all p = l.all (fun a => p (f a)) := by
  induction l with
  | nil => rfl
  | cons a l ih => simp [List.all_cons, ih]

theorem anyAffectedLoop_spec (rows : List SubjectRow)
    (df : List SubjectRow) (hnodup : (get_subjects df).Nodup)
    (hsub : ∀ r ∈ rows, r ∈ df) :
    anyAffectedLoop (rows.map (fun r => r.individualId)) df =
      Except.ok (rows.any affectedRow) := by
  induction rows with
  | nil => rfl
  | cons r rest ih =>
    rw [List.map_cons, anyAffectedLoop,
      is_affected_row df hnodup r (hsub r (List.mem_cons_self r rest)),
      except_bind_ok]
    cases haff : affectedRow r with
    | true => simp [List.any_cons, haff]
    | false =>
      simp only [Bool.false_eq_true, if_false]
      rw [ih (fun x hx => hsub x (List.mem_cons_of_mem r hx))]
      simp [List.any_cons, haff]

theorem keepFam_filter_ne (df : List SubjectRow) (fam fam2 : String)
    (hne : fam2 ≠ fam) :
    keepFam (df.filter (fun r => r.familyId != fam)) fam2 =
      keepFam df fam2 := by
  rw [keepFam, keepFam, List.filter_filter]
  refine congrArg (fun l => List.any l affectedRow) ?_
  refine List.filter_congr (fun x _ => ?_)
  by_cases hx : x.familyId = fam2
  · simp [hx, hne]
  · simp [hx]

theorem famInSamples_filter_ne (samples : List String)
    (df : List SubjectRow) (fam fam2 : String) (hne : fam2 ≠ fam) :
    famInSamples samples (df.filter (fun r => r.familyId != fam)) fam2 =
      famInSamples samples df fam2 := by
  rw [famInSamples, famInSamples, List.filter_filter]
  refine congrArg (fun l : List SubjectRow => List.all l
    (fun x => samples.contains x.individualId)) ?_
  refine List.filter_congr (fun x _ => ?_)
  by_cases hx : x.familyId = fam2
  · simp [hx, hne]
  · simp [hx]

theorem get_subjects_for_family_ok (df : List SubjectRow) (fam : String)
    (hmemf : fam ∈ get_families df) :
    get_subjects_for_family df fam = Except.ok
      ((df.filter (fun x => x.familyId == fam)).map
        (fun x => x.individualId)) := by
  rw [get_subjects_for_family]
  have hc : (get_families df).contains fam = true := by
    rw [contains_eq_mem, decide_eq_true_eq]
    exact hmemf
  rw [hc]
  rfl

theorem remove_family_ok (df : List SubjectRow) (fam : String)
    (hmemf : fam ∈ get_families df) :
    remove_family df fam = Except.ok
      (df.filter (fun r => r.familyId != fam)) := by
  rw [remove_family]
  have hc : (get_families df).contains fam = true := by
    rw [contains_eq_mem, decide_eq_true_eq]
    exact hmemf
  rw [hc]
  rfl

theorem removeNoAffectedLoop_spec (fams : List String) :
    ∀ df : List SubjectRow,
      (get_subjects df).Nodup → fams.Nodup →
      (∀ fam ∈ fams, fam ∈ get_families df) →
      removeNoAffectedLoop fams df = Except.ok
        (df.filter (fun r =>
          !(fams.contains r.familyId) || keepFam df r.familyId)) := by
  induction fams with
  | nil =>
    intro df _ _ _
    rw [removeNoAffectedLoop]
    exact congrArg Except.ok
      (Eq.symm (List.filter_eq_self.mpr (fun x _ => by simp)))
  | cons fam rest ih =>
    intro df hnodup hfnd hpres
    rw [removeNoAffectedLoop]
    have hmemf : fam ∈ get_families df :=
      hpres fam (List.mem_cons_self fam rest)
    rw [get_subjects_for_family_ok df fam hmemf, except_bind_ok]
    rw [anyAffectedLoop_spec (df.filter (fun x => x.familyId == fam)) df
      hnodup (fun r hr => List.mem_of_mem_filter hr), except_bind_ok]
    have hkf : (df.filter (fun x => x.familyId == fam)).any affectedRow =
        keepFam df fam := rfl
    rw [hkf]
    cases hkeep : keepFam df fam with
    | true =>
      simp only [if_true]
      rw [ih df hnodup (List.nodup_cons.mp hfnd).2
        (fun f hf => hpres f (List.mem_cons_of_mem fam hf))]
      refine congrArg Except.ok (List.filter_congr (fun r hr => ?_))
      by_cases hrf : r.familyId = fam
      · have hrest : fam ∉ rest := (List.nodup_cons.mp hfnd).1
        simp [hrf, contains_eq_mem, hrest, hkeep, List.mem_cons]
      · simp [contains_eq_mem, List.mem_cons, hrf]
    | false =>
      simp only [Bool.false_eq_true, if_false]
      rw [remove_family_ok df fam hmemf, except_bind_ok]
      have hnodup2 : (get_subjects
          (df.filter (fun r => r.familyId != fam))).Nodup := by
        rw [get_subjects]
        refine List.Nodup.sublist ((List.filter_sublist df).map _) ?_
        rw [get_subjects] at hnodup
        exact hnodup
      rw [ih _ hnodup2 (List.nodup_cons.mp hfnd).2 (fun f hf => by
        have hne : f ≠ fam := fun he =>
          (List.nodup_cons.mp hfnd).1 (he ▸ hf)
        have hf2 := hpres f (List.mem_cons_of_mem fam hf)
        rw [mem_get_families] at hf2 ⊢
        rcases hf2 with ⟨r, hr, hrfam⟩
        exact ⟨r, List.mem_filter.mpr ⟨hr, by simp [hrfam, hne]⟩, hrfam⟩)]
      refine congrArg Except.ok ?_
      rw [List.filter_filter]
      refine List.filter_congr (fun r hr => ?_)
      by_cases hrf2 : r.familyId = fam
      · simp [hrf2, hkeep, contains_eq_mem, List.mem_cons]
      · rw [keepFam_filter_ne df fam r.familyId hrf2]
        simp [hrf2, contains_eq_mem, List.mem_cons]

theorem removeNotInSamplesLoop_spec (samples : List String)
    (fams : List String) :
    ∀ df : List SubjectRow,
      fams.Nodup →
      (∀ fam ∈ fams, fam ∈ get_families df) →
      removeNotInSamplesLoop samples fams df = Except.ok
        (df.filter (fun r =>
          !(fams.contains r.familyId) ||
            famInSamples samples df r.familyId)) := by
  induction fams with
  | nil =>
    intro df _ _
    rw [removeNotInSamplesLoop]
    exact congrArg Except.ok
      (Eq.symm (List.filter_eq_self.mpr (fun x _ => by simp)))
  | cons fam rest ih =>
    intro df hfnd hpres
    rw [removeNotInSamplesLoop]
    have hmemf : fam ∈ get_families df :=
      hpres fam (List.mem_cons_self fam rest)
    rw [get_subjects_for_family_ok df fam hmemf, except_bind_ok]
    have hall : ((df.filter (fun x => x.familyId == fam)).map
        (fun x => x.individualId)).all (fun s => samples.contains s) =
        famInSamples samples df fam := by
      rw [all_map_general]
      rfl
    rw [hall]
    cases hin : famInSamples samples df fam with
    | true =>
      simp only [if_true]
      rw [ih df (List.nodup_cons.mp hfnd).2
        (fun f hf => hpres f (List.mem_cons_of_mem fam hf))]
      refine congrArg Except.ok (List.filter_congr (fun r hr => ?_))
      by_cases hrf : r.familyId = fam
      · have hrest : fam ∉ rest := (List.nodup_cons.mp hfnd).1
        simp [hrf, contains_eq_mem, hrest, hin, List.mem_cons]
      · simp [contains_eq_mem, List.mem_cons, hrf]
    | false =>
      simp only [Bool.false_eq_true, if_false]
      rw [remove_family_ok df fam hmemf, except_bind_ok]
      rw [ih _ (List.nodup_cons.mp hfnd).2 (fun f hf => by
        have hne : f ≠ fam := fun he =>
          (List.nodup_cons.mp hfnd).1 (he ▸ hf)
        have hf2 := hpres f (List.mem_cons_of_mem fam hf)
        rw [mem_get_families] at hf2 ⊢
        rcases hf2 with ⟨r, hr, hrfam⟩
        exact ⟨r, List.mem_filter.mpr ⟨hr, by simp [hrfam, hne]⟩, hrfam⟩)]
      refine congrArg Except.ok ?_
      rw [List.filter_filter]
      refine List.filter_congr (fun r hr => ?_)
      by_cases hrf2 : r.familyId = fam
      · simp [hrf2, hin, contains_eq_mem, List.mem_cons]
      · rw [famInSamples_filter_ne samples df fam r.familyId hrf2]
        simp [hrf2, contains_eq_mem, List.mem_cons]

/-- Claim C6: `filter_indiv` applies the eligibility filtering before
partitioning and in this order — first every subject with
`is_data_loaded` false is removed; then every family with zero affected
subjects remaining is removed; then, if a sample-availability list is
supplied, every family any of whose remaining subjects is absent from
that list is removed in its entirety. -/
theorem c6_filter_indiv (df : List SubjectRow)
    (samples : Option (List String))
    (hnodup : (get_subjects df).Nodup) :
    filter_indiv df samples = Except.ok
      (match samples with
       | none => stage2 (stage1 df)
       | some s => stage3 s (stage2 (stage1 df))) := by
  rw [filter_indiv]
  have h1 : removeUnloadedLoop (get_subjects df) df =
      Except.ok (stage1 df) := by
    have h := removeUnloadedLoop_spec df [] (by simpa using hnodup)
      (by simp)
    simpa [stage1] using h
  rw [h1, except_bind_ok]
  have hnodup1 : (get_subjects (stage1 df)).Nodup := by
    rw [stage1, get_subjects]
    refine List.Nodup.sublist ((List.filter_sublist df).map _) ?_
    rw [get_subjects] at hnodup
    exact hnodup
  have h2 : removeNoAffectedLoop (get_families (stage1 df)) (stage1 df) =
      Except.ok (stage2 (stage1 df)) := by
    rw [removeNoAffectedLoop_spec (get_families (stage1 df)) (stage1 df)
      hnodup1 (nodup_uniqueFirst _) (fun f hf => hf)]
    refine congrArg Except.ok ?_
    rw [stage2]
    refine List.filter_congr (fun r hr => ?_)
    have hmem : r.familyId ∈ get_families (stage1 df) :=
      (mem_get_families _ _).mpr ⟨r, hr, rfl⟩
    simp [contains_eq_mem, hmem]
  rw [h2, except_bind_ok]
  cases samples with
  | none => rfl
  | some s =>
    show removeNotInSamplesLoop s (get_families (stage2 (stage1 df)))
        (stage2 (stage1 df)) =
      Except.ok (stage3 s (stage2 (stage1 df)))
    rw [removeNotInSamplesLoop_spec s
      (get_families (stage2 (stage1 df))) (stage2 (stage1 df))
      (nodup_uniqueFirst _) (fun f hf => hf)]
    refine congrArg Except.ok ?_
    rw [stage3]
    refine List.filter_congr (fun r hr => ?_)
    have hmem : r.familyId ∈ get_families (stage2 (stage1 df)) :=
      (mem_get_families _ _).mpr ⟨r, hr, rfl⟩
    simp [contains_eq_mem, hmem]

/-- Witness for claim C6: a two-family registry — family A's proband is
loaded and affected, its second member unloaded; family B has no
affected member; the samples list covers only family A. -/
theorem c6_filter_indiv_witness :
    filter_indiv
      [⟨"A", "a1", none, none, none, some "Affected", some "Yes", none⟩,
       ⟨"A", "a2", none, none, none, none, none, none⟩,
       ⟨"B", "b1", none, none, none, none, some "Yes", none⟩]
      (some ["a1"]) =
      Except.ok
        [⟨"A", "a1", none, none, none, some "Affected", some "Yes", none⟩] := by
  rw [c6_filter_indiv _ _ (by decide)]
  rfl

namespace RdMethods.Assigner

theorem pyTake_append_pyDrop {α : Type} (l : List α) (n : Int) :
    pyTake l n ++ pyDrop l n = l := by
  rw [pyTake, pyDrop]
  by_cases h : 0 ≤ n
  · rw [if_pos h, if_pos h, List.take_append_drop]
  · rw [if_neg h, if_neg h, List.take_append_drop]

theorem mem_pyTake_or_pyDrop {α : Type} (l : List α) (n : Int) (a : α)
    (ha : a ∈ l) : a ∈ pyTake l n ∨ a ∈ pyDrop l n := by
  rw [← pyTake_append_pyDrop l n] at ha
  exact List.mem_append.mp ha

theorem mem_of_mem_pyTake {α : Type} {l : List α} {n : Int} {a : α}
    (ha : a ∈ pyTake l n) : a ∈ l := by
  rw [← pyTake_append_pyDrop l n]
  exact List.mem_append_left _ ha

theorem mem_of_mem_pyDrop {α : Type} {l : List α} {n : Int} {a : α}
    (ha : a ∈ pyDrop l n) : a ∈ l := by
  rw [← pyTake_append_pyDrop l n]
  exact List.mem_append_right _ ha

theorem pyTake_disjoint_pyDrop {α : Type} (l : List α) (n : Int)
    (hnd : l.Nodup) {a : α} (ht : a ∈ pyTake l n) : a ∉ pyDrop l n := by
  have h2 := hnd
  rw [← pyTake_append_pyDrop l n, List.nodup_append] at h2
  exact fun hd => h2.2.2 ht hd

theorem pyTake_nodup {α : Type} (l : List α) (n : Int) (hnd : l.Nodup) :
    (pyTake l n).Nodup := by
  have h2 := hnd
  rw [← pyTake_append_pyDrop l n, List.nodup_append] at h2
  exact h2.1

theorem length_pyTake_of_bounds {α : Type} (l : List α) (n : Int)
    (h0 : 0 ≤ n) (hlen : n ≤ (l.length : Int)) :
    ((pyTake l n).length : Int) = n := by
  rw [pyTake, if_pos h0, List.length_take]
  omega

theorem filter_map_pres {q : AssignRow → Bool} (u : AssignRow → AssignRow)
    (cur : List AssignRow) (hq : ∀ c ∈ cur, q (u c) = q c) :
    (cur.map u).filter q = (cur.filter q).map u := by
  rw [List.filter_map]
  exact congrArg (List.map u) (List.filter_congr (fun c hc => hq c hc))

theorem forall2_map_self {α : Type} {R : α → α → Prop} (u : α → α)
    (cur : List α) (h : ∀ c ∈ cur, R c (u c)) :
    List.Forall₂ R cur (cur.map u) := by
  induction cur with
  | nil => exact List.Forall₂.nil
  | cons c cur ih =>
    exact List.Forall₂.cons (h c (List.mem_cons_self c cur))
      (ih (fun x hx => h x (List.mem_cons_of_mem c hx)))

theorem forall2_compose {α β γ : Type} {R : α → β → Prop}
    {S : β → γ → Prop} {T : α → γ → Prop} {l₁ : List α} {l₂ : List β}
    {l₃ : List γ} (hcomp : ∀ a b c, R a b → S b c → T a c)
    (h1 : List.Forall₂ R l₁ l₂) (h2 : List.Forall₂ S l₂ l₃) :
    List.Forall₂ T l₁ l₃ := by
  induction h1 generalizing l₃ with
  | nil =>
    cases h2
    exact List.Forall₂.nil
  | cons hR hrest ih =>
    cases h2 with
    | cons hS h2rest =>
      exact List.Forall₂.cons (hcomp _ _ _ hR hS) (ih h2rest)

theorem forall2_mem_right {α β : Type} {R : α → β → Prop}
    {l₁ : List α} {l₂ : List β} (h : List.Forall₂ R l₁ l₂) :
    ∀ c ∈ l₂, ∃ r ∈ l₁, R r c := by
  induction h with
  | nil => intro c hc; cases hc
  | cons hR hrest ih =>
    intro c hc
    rcases List.mem_cons.mp hc with rfl | hc
    · exact ⟨_, List.mem_cons_self _ _, hR⟩
    · rcases ih c hc with ⟨r, hr, hRr⟩
      exact ⟨r, List.mem_cons_of_mem _ hr, hRr⟩

theorem forall2_find?_right {R : AssignRow → AssignRow → Prop} :
    ∀ {l₁ l₂ : List AssignRow}, List.Forall₂ R l₁ l₂ →
    (∀ r c, R r c → c.family_id = r.family_id) → ∀ (f : String)
    (r : AssignRow), l₁.find? (fun x => x.family_id == f) = some r →
    ∃ c, l₂.find? (fun x => x.family_id == f) = some c ∧ R r c := by
  intro l₁ l₂ h hid f
  induction h with
  | nil => intro r hr; exact absurd hr (by simp)
  | @cons a b l₁ l₂ hR hrest ih =>
    intro r hr
    by_cases hhead : (a.family_id == f) = true
    · have hs1 : List.find? (fun x => x.family_id == f) (a :: l₁) =
          some a := List.find?_cons_of_pos _ hhead
      rw [hs1] at hr
      injection hr with hr
      subst hr
      refine ⟨b, ?_, hR⟩
      have hs2 : List.find? (fun x => x.family_id == f) (b :: l₂) =
          some b :=
        List.find?_cons_of_pos _ (by rw [hid _ _ hR]; exact hhead)
      exact hs2
    · have hs1 : List.find? (fun x => x.family_id == f) (a :: l₁) =
          List.find? (fun x => x.family_id == f) l₁ :=
        List.find?_cons_of_neg _ hhead
      rw [hs1] at hr
      rcases ih r hr with ⟨c, hc, hRc⟩
      refine ⟨c, ?_, hRc⟩
      have hs2 : List.find? (fun x => x.family_id == f) (b :: l₂) =
          List.find? (fun x => x.family_id == f) l₂ :=
        List.find?_cons_of_neg _ (by rw [hid _ _ hR]; exact hhead)
      rw [hs2]
      exact hc

theorem row_eq_of_id_eq {cur : List AssignRow}
    (hids : (cur.map (fun r => r.family_id)).Nodup)
    {a b : AssignRow} (ha : a ∈ cur) (hb : b ∈ cur)
    (he : a.family_id = b.family_id) : a = b :=
  List.inj_on_of_nodup_map hids ha hb he

theorem assignTag_eq_map (cur : List AssignRow) (t : String)
    (shuffled : List String) :
    assignTag cur t shuffled = cur.map (fun c =>
      if (pyDrop shuffled (nTrainNew cur t)).contains c.family_id then
        ⟨c.family_id, some "holdout", c.tag⟩
      else if (pyTake shuffled (nTrainNew cur t)).contains c.family_id then
        ⟨c.family_id, some "train", c.tag⟩
      else c) := by
  rw [assignTag, setGroup, setGroup, List.map_map]
  refine List.map_congr_left (fun c hc => ?_)
  simp only [Function.comp_apply]
  by_cases hT : c.family_id ∈ pyTake shuffled (nTrainNew cur t)
  · by_cases hD : c.family_id ∈ pyDrop shuffled (nTrainNew cur t)
    · simp [contains_eq_mem, hT, hD]
    · simp [contains_eq_mem, hT, hD]
  · by_cases hD : c.family_id ∈ pyDrop shuffled (nTrainNew cur t)
    · simp [contains_eq_mem, hT, hD]
    · simp [contains_eq_mem, hT, hD]

end RdMethods.Assigner

namespace RdMethods.Assigner

/-- Any family in the shuffle of a tag's unassigned pool identifies a
registry row with that tag and no group. -/
theorem row_of_mem_shuffle (cur : List AssignRow) (t : String)
    (shuffled : List String)
    (hids : (cur.map (fun r => r.family_id)).Nodup)
    (hmem : ∀ f, f ∈ shuffled ↔ f ∈ unassignedIds cur t) :
    ∀ c ∈ cur, c.family_id ∈ shuffled → c.tag = t ∧ c.group = none := by
  intro c hc hcs
  have hmemu := (hmem c.family_id).mp hcs
  rw [unassignedIds, List.mem_map] at hmemu
  rcases hmemu with ⟨c2, hc2, hc2id⟩
  have hc2cur := List.mem_of_mem_filter hc2
  have hc2q := List.of_mem_filter hc2
  have he : c2 = c := row_eq_of_id_eq hids hc2cur hc hc2id
  subst he
  simp only [Bool.and_eq_true, Option.isNone_iff_eq_none,
    beq_iff_eq] at hc2q
  exact ⟨hc2q.2, hc2q.1⟩

/-- The per-row action of `assignTag`: family and tag are preserved; a
row that is assigned or of another tag passes through unchanged; an
unassigned row of the processed tag ends in `holdout` when its family
falls in the tail slice of the shuffle and in `train` otherwise. -/
theorem assignTag_row_rel (cur : List AssignRow) (t : String)
    (shuffled : List String)
    (hids : (cur.map (fun r => r.family_id)).Nodup)
    (hmem : ∀ f, f ∈ shuffled ↔ f ∈ unassignedIds cur t) :
    List.Forall₂ (fun r c =>
      c.family_id = r.family_id ∧ c.tag = r.tag ∧
      ((r.tag ≠ t ∨ r.group ≠ none) → c = r) ∧
      (r.tag = t → r.group = none →
        c.group = (if (pyDrop shuffled (nTrainNew cur t)).contains
            r.family_id then some "holdout" else some "train")))
      cur (assignTag cur t shuffled) := by
  rw [assignTag_eq_map]
  refine forall2_map_self _ cur (fun c hc => ?_)
  by_cases hD : (pyDrop shuffled (nTrainNew cur t)).contains c.family_id
  · have hrow := row_of_mem_shuffle cur t shuffled hids hmem c hc
      (mem_of_mem_pyDrop (by
        rw [contains_eq_mem, decide_eq_true_eq] at hD
        exact hD))
    rw [if_pos hD]
    refine ⟨rfl, rfl, fun habs => ?_, fun _ _ => ?_⟩
    · rcases habs with habs | habs
      · exact absurd hrow.1 habs
      · exact absurd hrow.2 habs
    · rw [if_pos hD]
  · by_cases hT : (pyTake shuffled (nTrainNew cur t)).contains c.family_id
    · have hrow := row_of_mem_shuffle cur t shuffled hids hmem c hc
        (mem_of_mem_pyTake (by
          rw [contains_eq_mem, decide_eq_true_eq] at hT
          exact hT))
      rw [if_neg hD, if_pos hT]
      refine ⟨rfl, rfl, fun habs => ?_, fun _ _ => ?_⟩
      · rcases habs with habs | habs
        · exact absurd hrow.1 habs
        · exact absurd hrow.2 habs
      · rw [if_neg hD]
    · rw [if_neg hD, if_neg hT]
      refine ⟨rfl, rfl, fun _ => rfl, fun htag hgroup => ?_⟩
      have hcs : c.family_id ∈ shuffled := by
        rw [hmem, unassignedIds, List.mem_map]
        exact ⟨c, List.mem_filter.mpr ⟨hc, by simp [htag, hgroup]⟩, rfl⟩
      rcases mem_pyTake_or_pyDrop shuffled (nTrainNew cur t) _ hcs
          with hin | hin
      · rw [contains_eq_mem, decide_eq_true_eq] at hT
        exact absurd hin hT
      · rw [contains_eq_mem, decide_eq_true_eq] at hD
        exact absurd hin hD

theorem forall2_map_eq {α β : Type} {R : α → α → Prop} {f : α → β} :
    ∀ {l₁ l₂ : List α}, List.Forall₂ R l₁ l₂ →
      (∀ r c, R r c → f c = f r) → l₂.map f = l₁.map f := by
  intro l₁ l₂ h hf
  induction h with
  | nil => rfl
  | cons hR hrest ih =>
    rw [List.map_cons, List.map_cons, hf _ _ hR, ih]

theorem forall2_filter_eq {α : Type} {R : α → α → Prop} {q : α → Bool} :
    ∀ {l₁ l₂ : List α}, List.Forall₂ R l₁ l₂ →
      (∀ r c, R r c → q c = q r) →
      (∀ r c, R r c → q r = true → c = r) →
      l₂.filter q = l₁.filter q := by
  intro l₁ l₂ h hpres hfix
  induction h with
  | nil => rfl
  | @cons r c l₁ l₂ hR hrest ih =>
    by_cases hqr : q r = true
    · have hcr : c = r := hfix _ _ hR hqr
      subst hcr
      rw [List.filter_cons_of_pos hqr, List.filter_cons_of_pos hqr, ih]
    · rw [List.filter_cons_of_neg (by rw [hpres _ _ hR]; exact hqr),
        List.filter_cons_of_neg hqr, ih]

theorem forall2_filter_length {α : Type} {R : α → α → Prop} {q : α → Bool} :
    ∀ {l₁ l₂ : List α}, List.Forall₂ R l₁ l₂ →
      (∀ r c, R r c → q c = q r) →
      (l₂.filter q).length = (l₁.filter q).length := by
  intro l₁ l₂ h hpres
  induction h with
  | nil => rfl
  | @cons r c l₁ l₂ hR hrest ih =>
    by_cases hqr : q r = true
    · rw [List.filter_cons_of_pos (by rw [hpres _ _ hR]; exact hqr),
        List.filter_cons_of_pos hqr, List.length_cons, List.length_cons,
        ih]
    · rw [List.filter_cons_of_neg (by rw [hpres _ _ hR]; exact hqr),
        List.filter_cons_of_neg hqr, ih]

/-- Processing one tag leaves the unassigned pool of every other tag
unchanged. -/
theorem unassignedIds_assignTag_ne (cur : List AssignRow) (t : String)
    (shuffled : List String) (t2 : String)
    (hids : (cur.map (fun r => r.family_id)).Nodup)
    (hmem : ∀ f, f ∈ shuffled ↔ f ∈ unassignedIds cur t)
    (hne : t2 ≠ t) :
    unassignedIds (assignTag cur t shuffled) t2 = unassignedIds cur t2 := by
  have hrel := assignTag_row_rel cur t shuffled hids hmem
  rw [unassignedIds, unassignedIds]
  refine congrArg (List.map (fun r : AssignRow => r.family_id)) ?_
  refine forall2_filter_eq hrel ?_ ?_
  · rintro r c ⟨hid, htag, hfix, hact⟩
    by_cases hrt : r.tag = t2
    · rw [hfix (Or.inl (by rw [hrt]; exact hne))]
    · have h1 : (r.tag == t2) = false := by
        simp [hrt]
      have h2 : (c.tag == t2) = false := by
        rw [htag]
        simp [hrt]
      simp [h1, h2]
  · rintro r c ⟨hid, htag, hfix, hact⟩ hq
    simp only [Bool.and_eq_true, beq_iff_eq] at hq
    exact hfix (Or.inl (by rw [hq.2]; exact hne))

/-- Processing one tag preserves the train quota of every other tag. -/
theorem nTrainNew_assignTag_ne (cur : List AssignRow) (t : String)
    (shuffled : List String) (t2 : String)
    (hids : (cur.map (fun r => r.family_id)).Nodup)
    (hmem : ∀ f, f ∈ shuffled ↔ f ∈ unassignedIds cur t)
    (hne : t2 ≠ t) :
    nTrainNew (assignTag cur t shuffled) t2 = nTrainNew cur t2 := by
  have hrel := assignTag_row_rel cur t shuffled hids hmem
  rw [nTrainNew, nTrainNew, nTaggedTrain, nTaggedTrain]
  have hc1 : ((assignTag cur t shuffled).filter
      (fun r => r.tag == t2)).length =
      (cur.filter (fun r => r.tag == t2)).length := by
    refine forall2_filter_length hrel ?_
    rintro r c ⟨hid, htag, hfix, hact⟩
    rw [htag]
  have hc2 : ((assignTag cur t shuffled).filter
      (fun r => r.group == some "train" && r.tag == t2)).length =
      (cur.filter
        (fun r => r.group == some "train" && r.tag == t2)).length := by
    refine forall2_filter_length hrel ?_
    rintro r c ⟨hid, htag, hfix, hact⟩
    by_cases hrt : r.tag = t2
    · rw [hfix (Or.inl (by rw [hrt]; exact hne))]
    · have h1 : (r.tag == t2) = false := by simp [hrt]
      have h2 : (c.tag == t2) = false := by rw [htag]; simp [hrt]
      simp [h1, h2]
  rw [hc1, hc2]

/-- Processing one tag preserves the family index in order. -/
theorem ids_assignTag (cur : List AssignRow) (t : String)
    (shuffled : List String)
    (hids : (cur.map (fun r => r.family_id)).Nodup)
    (hmem : ∀ f, f ∈ shuffled ↔ f ∈ unassignedIds cur t) :
    (assignTag cur t shuffled).map (fun r => r.family_id) =
      cur.map (fun r => r.family_id) :=
  forall2_map_eq (assignTag_row_rel cur t shuffled hids hmem)
    (fun r c hR => hR.1)

end RdMethods.Assigner

namespace RdMethods.Assigner

/-- The per-row characterization of the assignment loop over a list of
distinct tags: family and tag are preserved; rows of unprocessed tags
and already-assigned rows pass through unchanged; an unassigned row of
a processed tag ends in `holdout` when its family falls in the tail
slice of that tag's shuffle and in `train` otherwise. -/
theorem foldl_assign_char (ts : List String) :
    ∀ (cur : List AssignRow) (σ : String → List String),
      (cur.map (fun r => r.family_id)).Nodup →
      ts.Nodup →
      (∀ t ∈ ts, ∀ f, f ∈ σ t ↔ f ∈ unassignedIds cur t) →
      List.Forall₂ (fun r c =>
        c.family_id = r.family_id ∧ c.tag = r.tag ∧
        (r.tag ∉ ts → c = r) ∧
        (r.group ≠ none → c = r) ∧
        (r.tag ∈ ts → r.group = none →
          c.group = (if (pyDrop (σ r.tag) (nTrainNew cur r.tag)).contains
              r.family_id then some "holdout" else some "train")))
        cur (ts.foldl (fun acc u => assignTag acc u (σ u)) cur) := by
  induction ts with
  | nil =>
    intro cur σ _ _ _
    rw [List.foldl_nil]
    refine List.forall₂_same.mpr (fun r hr => ?_)
    exact ⟨rfl, rfl, fun _ => rfl, fun _ => rfl,
      fun h _ => absurd h (List.not_mem_nil _)⟩
  | cons t rest ih =>
    intro cur σ hids hnd hσ
    rw [List.foldl_cons]
    have hndr := List.nodup_cons.mp hnd
    have hmem := hσ t (List.mem_cons_self t rest)
    have h1 := assignTag_row_rel cur t (σ t) hids hmem
    have hids2 : ((assignTag cur t (σ t)).map
        (fun r => r.family_id)).Nodup := by
      rw [ids_assignTag cur t (σ t) hids hmem]
      exact hids
    have hσ2 : ∀ u ∈ rest, ∀ f,
        f ∈ σ u ↔ f ∈ unassignedIds (assignTag cur t (σ t)) u := by
      intro u hu f
      rw [unassignedIds_assignTag_ne cur t (σ t) u hids hmem
        (fun he => hndr.1 (he ▸ hu))]
      exact hσ u (List.mem_cons_of_mem t hu) f
    have h2 := ih (assignTag cur t (σ t)) σ hids2 hndr.2 hσ2
    refine forall2_compose ?_ h1 h2
    rintro a b c ⟨hid1, htag1, hfix1, hact1⟩
      ⟨hid2, htag2, hfix2a, hfix2b, hact2⟩
    refine ⟨hid2.trans hid1, htag2.trans htag1, ?_, ?_, ?_⟩
    · intro hnot
      have hnt : a.tag ≠ t := fun he =>
        hnot (he ▸ List.mem_cons_self t rest)
      have hnr : a.tag ∉ rest := fun hmem2 =>
        hnot (List.mem_cons_of_mem t hmem2)
      have hba : b = a := hfix1 (Or.inl hnt)
      subst hba
      exact hfix2a hnr
    · intro hg
      have hba : b = a := hfix1 (Or.inr hg)
      subst hba
      exact hfix2b hg
    · intro hmem3 hgnone
      rcases List.mem_cons.mp hmem3 with hat | hat
      · have hbg := hact1 hat hgnone
        have hbg2 : b.group ≠ none := by
          rw [hbg]
          split_ifs <;> simp
        have hcb : c = b := hfix2b hbg2
        rw [hcb, hbg, hat]
      · have hnt : a.tag ≠ t := fun he => hndr.1 (he ▸ hat)
        have hba : b = a := hfix1 (Or.inl hnt)
        subst hba
        have hcg := hact2 hat hgnone
        rw [hcg, nTrainNew_assignTag_ne cur t (σ t) _ hids hmem hnt]

end RdMethods.Assigner

namespace RdMethods.Assigner

theorem find?_beq_self (l : List String) (fam : String) (h : fam ∈ l) :
    l.find? (fun x => x == fam) = some fam := by
  induction l with
  | nil => cases h
  | cons a l ih =>
    by_cases ha : (a == fam) = true
    · have hs : List.find? (fun x => x == fam) (a :: l) = some a :=
        List.find?_cons_of_pos _ ha
      rw [hs, beq_iff_eq.mp ha]
    · have hs : List.find? (fun x => x == fam) (a :: l) =
          List.find? (fun x => x == fam) l :=
        List.find?_cons_of_neg _ ha
      rw [hs]
      refine ih ?_
      rcases List.mem_cons.mp h with rfl | h2
      · exact absurd (by simp) ha
      · exact h2

theorem find?_map_keyA (F : String → AssignRow)
    (hkey : ∀ x, (F x).family_id = x) (l : List String) (fam : String) :
    (l.map F).find? (fun r => r.family_id == fam) =
      (l.find? (fun x => x == fam)).map F := by
  induction l with
  | nil => rfl
  | cons a l ih =>
    rw [List.map_cons]
    by_cases ha : (a == fam) = true
    · have h1 : List.find? (fun r => r.family_id == fam)
          (F a :: l.map F) = some (F a) :=
        List.find?_cons_of_pos _ (by rw [hkey]; exact ha)
      have h2 : List.find? (fun x => x == fam) (a :: l) = some a :=
        List.find?_cons_of_pos _ ha
      rw [h1, h2]
      rfl
    · have h1 : List.find? (fun r => r.family_id == fam)
          (F a :: l.map F) =
          List.find? (fun r => r.family_id == fam) (l.map F) :=
        List.find?_cons_of_neg _ (by rw [hkey]; exact ha)
      have h2 : List.find? (fun x => x == fam) (a :: l) =
          List.find? (fun x => x == fam) l :=
        List.find?_cons_of_neg _ ha
      rw [h1, h2, ih]

theorem ids_applyHistory_build (families : List String)
    (tagDf : List Tags.TagRow) (hist : List HistRow) :
    (applyHistory (buildAssignments families tagDf) hist).map
      (fun r => r.family_id) = families := by
  rw [applyHistory, buildAssignments, List.map_map, List.map_map]
  have hstep : ∀ fam ∈ families,
      ((fun r : AssignRow => r.family_id) ∘
        ((fun r : AssignRow =>
          match hist.find? (fun h => h.family_id == r.family_id) with
          | none => r
          | some h =>
            ⟨r.family_id,
             (match h.group with | some g => some g | none => r.group),
             h.tag.getD r.tag⟩) ∘
        (fun fam => (⟨fam, none,
          (Tags.get_highest_precedence_tag tagDf fam).getD
            "untagged"⟩ : AssignRow)))) fam = id fam := by
    intro fam _
    show (match hist.find? (fun h : HistRow => h.family_id == fam) with
      | none => (⟨fam, none,
          (Tags.get_highest_precedence_tag tagDf fam).getD
            "untagged"⟩ : AssignRow)
      | some h =>
        (⟨fam, (match h.group with | some g => some g | none => none),
         h.tag.getD ((Tags.get_highest_precedence_tag tagDf fam).getD
           "untagged")⟩ : AssignRow)).family_id = fam
    cases hist.find? (fun h : HistRow => h.family_id == fam) with
    | none => rfl
    | some h => rfl
  exact (List.map_congr_left hstep).trans (List.map_id families)

theorem applyHistory_build_find? (families : List String)
    (tagDf : List Tags.TagRow) (hist : List HistRow) (fam : String)
    (hrec : HistRow) (g : String) (hmem : fam ∈ families)
    (hh : hist.find? (fun h => h.family_id == fam) = some hrec)
    (hg : hrec.group = some g) :
    (applyHistory (buildAssignments families tagDf) hist).find?
      (fun r => r.family_id == fam) =
      some ⟨fam, some g, hrec.tag.getD
        ((Tags.get_highest_precedence_tag tagDf fam).getD "untagged")⟩ := by
  rw [applyHistory, buildAssignments, List.map_map]
  rw [find?_map_keyA _ (fun x => by
    show (match hist.find? (fun h : HistRow => h.family_id == x) with
      | none => (⟨x, none,
          (Tags.get_highest_precedence_tag tagDf x).getD
            "untagged"⟩ : AssignRow)
      | some h =>
        (⟨x, (match h.group with | some g2 => some g2 | none => none),
         h.tag.getD ((Tags.get_highest_precedence_tag tagDf x).getD
           "untagged")⟩ : AssignRow)).family_id = x
    cases hist.find? (fun h : HistRow => h.family_id == x) with
    | none => rfl
    | some h => rfl) families fam]
  rw [find?_beq_self families fam hmem, Option.map_some']
  show some (match hist.find? (fun h : HistRow => h.family_id == fam) with
    | none => (⟨fam, none,
        (Tags.get_highest_precedence_tag tagDf fam).getD
          "untagged"⟩ : AssignRow)
    | some h =>
      (⟨fam, (match h.group with | some g2 => some g2 | none => none),
       h.tag.getD ((Tags.get_highest_precedence_tag tagDf fam).getD
         "untagged")⟩ : AssignRow)) = _
  rw [hh]
  show some (⟨fam,
    (match hrec.group with | some g2 => some g2 | none => none),
    hrec.tag.getD ((Tags.get_highest_precedence_tag tagDf fam).getD
      "untagged")⟩ : AssignRow) = _
  rw [hg]

end RdMethods.Assigner

namespace RdMethods.Assigner

theorem find?_assignrow_self (rows : List AssignRow)
    (hids : (rows.map (fun r => r.family_id)).Nodup) (r : AssignRow)
    (hr : r ∈ rows) :
    rows.find? (fun x => x.family_id == r.family_id) = some r := by
  induction rows with
  | nil => cases hr
  | cons a rows ih =>
    rw [List.map_cons, List.nodup_cons] at hids
    rcases List.mem_cons.mp hr with rfl | hr2
    · exact List.find?_cons_of_pos _ (by simp)
    · have hne : ¬(a.family_id == r.family_id) = true := by
        simp only [beq_iff_eq]
        intro he
        exact hids.1 (he ▸ List.mem_map_of_mem (fun x => x.family_id) hr2)
      have hs : List.find? (fun x => x.family_id == r.family_id)
          (a :: rows) =
          List.find? (fun x => x.family_id == r.family_id) rows :=
        List.find?_cons_of_neg _ hne
      rw [hs]
      exact ih hids.2 hr2

theorem unassignedIds_nodup (rows : List AssignRow) (t : String)
    (hids : (rows.map (fun r => r.family_id)).Nodup) :
    (unassignedIds rows t).Nodup := by
  rw [unassignedIds]
  exact List.Nodup.sublist
    ((List.filter_sublist rows).map (fun r => r.family_id)) hids

theorem length_filter_mem (l1 l2 : List String) (h1 : l1.Nodup)
    (h2 : l2.Nodup) (hsub : ∀ a ∈ l2, a ∈ l1) :
    (l1.filter (fun a => l2.contains a)).length = l2.length := by
  have hperm : (l1.filter (fun a => l2.contains a)).Perm l2 := by
    rw [List.perm_iff_count]
    intro a
    by_cases ha : a ∈ l2
    · rw [List.count_filter (by rw [contains_eq_mem]; simpa using ha),
        List.count_eq_one_of_mem h1 (hsub a ha),
        List.count_eq_one_of_mem h2 ha]
    · rw [List.count_eq_zero_of_not_mem ha,
        List.count_eq_zero_of_not_mem (fun hmem => ?_)]
      have := List.of_mem_filter hmem
      rw [contains_eq_mem, decide_eq_true_eq] at this
      exact ha this
  exact hperm.length_eq

/-- Claim C2: for every family that appears both in the supplied
history table with a recorded group and in the current eligible set,
the output assigns exactly the group recorded in history, for every
shuffle of every tag group; and its tag value from history takes
precedence over the freshly computed tag when present in history. -/
theorem c2_history_consistency (families : List String)
    (tagDf : List Tags.TagRow) (hist : List HistRow)
    (σ : String → List String) (fam g : String) (hrec : HistRow)
    (hnd : families.Nodup)
    (hσ : ∀ u ∈ uniqueFirst ((applyHistory (buildAssignments families
        tagDf) hist).map (fun r => r.tag)),
      (σ u).Perm (unassignedIds
        (applyHistory (buildAssignments families tagDf) hist) u))
    (hfam : fam ∈ families)
    (hh : hist.find? (fun h => h.family_id == fam) = some hrec)
    (hg : hrec.group = some g) :
    groupOf (assignLoop (applyHistory (buildAssignments families tagDf)
        hist) σ) fam = some g ∧
    tagOf (assignLoop (applyHistory (buildAssignments families tagDf)
        hist) σ) fam =
      some (hrec.tag.getD
        ((Tags.get_highest_precedence_tag tagDf fam).getD "untagged")) := by
  have hids : ((applyHistory (buildAssignments families tagDf)
      hist).map (fun r => r.family_id)).Nodup := by
    rw [ids_applyHistory_build]
    exact hnd
  have hfind0 := applyHistory_build_find? families tagDf hist fam hrec g
    hfam hh hg
  have hchar := foldl_assign_char
    (uniqueFirst ((applyHistory (buildAssignments families tagDf)
      hist).map (fun r => r.tag)))
    (applyHistory (buildAssignments families tagDf) hist) σ hids
    (nodup_uniqueFirst _)
    (fun u hu f => (hσ u hu).mem_iff)
  obtain ⟨c, hc, hrel⟩ := forall2_find?_right hchar
    (fun r c hR => hR.1) fam _ hfind0
  have hceq : c = ⟨fam, some g, hrec.tag.getD
      ((Tags.get_highest_precedence_tag tagDf fam).getD "untagged")⟩ :=
    hrel.2.2.2.1 (by simp)
  constructor
  · rw [groupOf, assignLoop, hc, hceq]
  · rw [tagOf, assignLoop, hc, hceq]
    rfl

/-- Witness for claim C2: two families, one fixed to `holdout` by the
history; the fixed group survives the run. -/
theorem c2_history_consistency_witness :
    groupOf (assignLoop (applyHistory
        (buildAssignments ["fA", "fB"] [])
        [⟨"fA", some "holdout", none⟩]) (fun _ => ["fB"])) "fA" =
      some "holdout" :=
  (c2_history_consistency ["fA", "fB"] [] [⟨"fA", some "holdout", none⟩]
    (fun _ => ["fB"]) "fA" "holdout" ⟨"fA", some "holdout", none⟩
    (by decide) (by decide) (by decide) (by decide) (by decide)).1

end RdMethods.Assigner

namespace RdMethods.Assigner

/-- Claim C1 (amended): for a tag group, the number of
previously-unassigned families newly assigned to `train` equals the
length of the Python slice `shuffled[:n_train_new]` — which equals
`n_train_new = int(total * 0.5) - already_train` whenever that value
lies between 0 and the number of unassigned families of the tag (in
particular always when no family of the tag was pre-assigned) — and
unconditionally every family ends with exactly one group, `train` or
`holdout`. -/
theorem c1_quota_and_partition (rows : List AssignRow)
    (σ : String → List String) (t : String)
    (hids : (rows.map (fun r => r.family_id)).Nodup)
    (hσ : ∀ u ∈ uniqueFirst (rows.map (fun r => r.tag)),
      (σ u).Perm (unassignedIds rows u))
    (hgroups : ∀ r ∈ rows, r.group = none ∨ r.group = some "train" ∨
      r.group = some "holdout")
    (ht : t ∈ uniqueFirst (rows.map (fun r => r.tag))) :
    (newlyTrainCount rows (assignLoop rows σ) t =
      (pyTake (σ t) (nTrainNew rows t)).length)
    ∧ (0 ≤ nTrainNew rows t →
        nTrainNew rows t ≤ ((unassignedIds rows t).length : Int) →
        ((newlyTrainCount rows (assignLoop rows σ) t : Int) =
          nTrainNew rows t))
    ∧ (∀ c ∈ assignLoop rows σ, c.group = some "train" ∨
        c.group = some "holdout") := by
  have hchar := foldl_assign_char (uniqueFirst (rows.map (fun r => r.tag)))
    rows σ hids (nodup_uniqueFirst _) (fun u hu f => (hσ u hu).mem_iff)
  have hσt := hσ t ht
  have hund := unassignedIds_nodup rows t hids
  have hσnd : (σ t).Nodup := hσt.symm.nodup hund
  have hgof : ∀ f ∈ unassignedIds rows t,
      (groupOf (assignLoop rows σ) f == some "train") =
        (pyTake (σ t) (nTrainNew rows t)).contains f := by
    intro f hf
    rw [unassignedIds, List.mem_map] at hf
    rcases hf with ⟨r, hrf, hrid⟩
    have hrrows := List.mem_of_mem_filter hrf
    have hrq := List.of_mem_filter hrf
    simp only [Bool.and_eq_true, Option.isNone_iff_eq_none,
      beq_iff_eq] at hrq
    have hfind := find?_assignrow_self rows hids r hrrows
    obtain ⟨c, hc, hrel⟩ := forall2_find?_right hchar
      (fun r c hR => hR.1) r.family_id r hfind
    have hmemts : r.tag ∈ uniqueFirst (rows.map (fun x => x.tag)) := by
      rw [mem_uniqueFirst]
      exact List.mem_map_of_mem (fun x => x.tag) hrrows
    have hcg := hrel.2.2.2.2 hmemts hrq.1
    rw [hrq.2] at hcg
    have hgofeq : groupOf (assignLoop rows σ) f = c.group := by
      rw [groupOf, assignLoop, ← hrid, hc]
    rw [hgofeq, hcg, hrid]
    have hfσ : f ∈ σ t := by
      rw [hσt.mem_iff, unassignedIds, List.mem_map]
      exact ⟨r, hrf, hrid⟩
    by_cases hD : f ∈ pyDrop (σ t) (nTrainNew rows t)
    · rw [if_pos (by rw [contains_eq_mem]; simpa using hD)]
      have hnT : f ∉ pyTake (σ t) (nTrainNew rows t) := fun hT =>
        pyTake_disjoint_pyDrop (σ t) (nTrainNew rows t) hσnd hT hD
      rw [contains_eq_mem]
      simp [hnT]
    · rw [if_neg (by rw [contains_eq_mem]; simpa using hD)]
      have hT : f ∈ pyTake (σ t) (nTrainNew rows t) := by
        rcases mem_pyTake_or_pyDrop (σ t) (nTrainNew rows t) f hfσ
            with h | h
        · exact h
        · exact absurd h hD
      rw [contains_eq_mem]
      simp [hT]
  have hcount : newlyTrainCount rows (assignLoop rows σ) t =
      (pyTake (σ t) (nTrainNew rows t)).length := by
    rw [newlyTrainCount, List.filter_congr hgof]
    refine length_filter_mem _ _ hund
      (pyTake_nodup (σ t) (nTrainNew rows t) hσnd) ?_
    intro a ha
    rw [← hσt.mem_iff]
    exact mem_of_mem_pyTake ha
  refine ⟨hcount, fun h0 hlen => ?_, fun c hc => ?_⟩
  · rw [hcount, length_pyTake_of_bounds (σ t) (nTrainNew rows t) h0]
    rw [hσt.length_eq]
    exact hlen
  · obtain ⟨r, hr, hrel⟩ := forall2_mem_right hchar c hc
    rcases hgroups r hr with hg | hg | hg
    · have hmemts : r.tag ∈ uniqueFirst (rows.map (fun x => x.tag)) := by
        rw [mem_uniqueFirst]
        exact List.mem_map_of_mem (fun x => x.tag) hr
      have := hrel.2.2.2.2 hmemts hg
      rw [this]
      split_ifs
      · exact Or.inr rfl
      · exact Or.inl rfl
    · have := hrel.2.2.2.1 (by rw [hg]; simp)
      rw [this, hg]
      exact Or.inl rfl
    · have := hrel.2.2.2.1 (by rw [hg]; simp)
      rw [this, hg]
      exact Or.inr rfl

/-- Counterexample for claim C1 as stated: with a history that already
fixed three families of the tag to `holdout` and one new family, the
quota `int(4 * 0.5) - 0 = 2` exceeds the unassigned pool, and only one
family is newly assigned to `train` — the claimed equality fails.  The
shuffle hypothesis holds (the pool is the single family `f1`). -/
theorem c1_counterexample :
    (∀ u ∈ uniqueFirst (([⟨"f1", none, "t0"⟩,
        ⟨"f2", some "holdout", "t0"⟩, ⟨"f3", some "holdout", "t0"⟩,
        ⟨"f4", some "holdout", "t0"⟩] : List AssignRow).map
          (fun r => r.tag)),
      ((fun _ : String => ["f1"]) u).Perm (unassignedIds
        [⟨"f1", none, "t0"⟩, ⟨"f2", some "holdout", "t0"⟩,
         ⟨"f3", some "holdout", "t0"⟩,
         ⟨"f4", some "holdout", "t0"⟩] u)) ∧
    nTrainNew [⟨"f1", none, "t0"⟩, ⟨"f2", some "holdout", "t0"⟩,
      ⟨"f3", some "holdout", "t0"⟩, ⟨"f4", some "holdout", "t0"⟩]
      "t0" = 2 ∧
    newlyTrainCount
      [⟨"f1", none, "t0"⟩, ⟨"f2", some "holdout", "t0"⟩,
       ⟨"f3", some "holdout", "t0"⟩, ⟨"f4", some "holdout", "t0"⟩]
      (assignLoop
        [⟨"f1", none, "t0"⟩, ⟨"f2", some "holdout", "t0"⟩,
         ⟨"f3", some "holdout", "t0"⟩, ⟨"f4", some "holdout", "t0"⟩]
        (fun _ => ["f1"])) "t0" = 1 ∧
    ((newlyTrainCount
      [⟨"f1", none, "t0"⟩, ⟨"f2", some "holdout", "t0"⟩,
       ⟨"f3", some "holdout", "t0"⟩, ⟨"f4", some "holdout", "t0"⟩]
      (assignLoop
        [⟨"f1", none, "t0"⟩, ⟨"f2", some "holdout", "t0"⟩,
         ⟨"f3", some "holdout", "t0"⟩, ⟨"f4", some "holdout", "t0"⟩]
        (fun _ => ["f1"])) "t0" : Int) ≠
      nTrainNew [⟨"f1", none, "t0"⟩, ⟨"f2", some "holdout", "t0"⟩,
        ⟨"f3", some "holdout", "t0"⟩, ⟨"f4", some "holdout", "t0"⟩]
        "t0") := by
  decide

/-- Witness for claim C1: two unassigned families of one tag, shuffled;
the quota equality and partition hold. -/
theorem c1_quota_and_partition_witness :
    ((newlyTrainCount [⟨"f1", none, "t0"⟩, ⟨"f2", none, "t0"⟩]
      (assignLoop [⟨"f1", none, "t0"⟩, ⟨"f2", none, "t0"⟩]
        (fun _ => ["f2", "f1"])) "t0" : Int) =
      nTrainNew [⟨"f1", none, "t0"⟩, ⟨"f2", none, "t0"⟩] "t0") :=
  ((c1_quota_and_partition [⟨"f1", none, "t0"⟩, ⟨"f2", none, "t0"⟩]
    (fun _ => ["f2", "f1"]) "t0" (by decide) (by decide) (by decide)
    (by decide)).2.1 (by decide) (by decide))

end RdMethods.Assigner
